import Mathlib

/-!
Jacobi relaxation solver, `multithread-jacobi/cn/main.cpp`.

A shallow embedding of the solver engine `JacobiEquasion<nThreads>` and of the
parts of `main` that size the buffers.

* `float` values are modelled as exact rationals (`ℚ`): every statement about
  values is a statement in exact arithmetic, rounding is not modelled.
* `size_t` expressions are evaluated over `ℤ` and reduced modulo `2^64`
  (`wrap`); pointer offsets are treated the same way.
* A `float*` buffer is a map from cell offset to value.  The two field buffers
  are distinct objects, so the buffer that a sweep reads is never changed by
  the writes of that sweep.
* The worker threads meet at a barrier before and after every sweep.  Between
  two barriers the workers are modelled as running one after the other, in an
  order given by a schedule; the theorems quantify over the schedule.
-/

namespace Jacobi

/-! ## Machine arithmetic and vector registers -/

/-- Value of a `size_t` expression: computed over the integers, reduced modulo `2^64`. -/
def wrap (e : Int) : Nat := (e % 18446744073709551616).toNat

/-- A `float*` buffer: cell offset to value. -/
abbrev Buf := Nat → ℚ

/-- A `__m256` register: eight `float` lanes. -/
abbrev M256 := Fin 8 → ℚ

/-- The intrinsic `_mm256_set1_ps`. -/
def mm256_set1_ps (a : ℚ) : M256 := fun _ => a

/-- The intrinsic `_mm256_loadu_ps(P + off)`: lane `k` is `P[off + k]`. -/
def mm256_loadu_ps (P : Buf) (off : Nat) : M256 := fun k => P (off + k.val)

/-- The intrinsic `_mm256_storeu_ps(P + off, v)`: `P[off + k] = v[k]` for the eight lanes. -/
def mm256_storeu_ps (P : Buf) (off : Nat) (v : M256) : Buf :=
  fun p => if h : off ≤ p ∧ p < off + 8 then v ⟨p - off, by omega⟩ else P p

/-- The intrinsic `_mm256_add_ps`. -/
def mm256_add_ps (a b : M256) : M256 := fun k => a k + b k

/-- The intrinsic `_mm256_fmadd_ps(a, b, c)`: lane-wise `a * b + c`. -/
def mm256_fmadd_ps (a b c : M256) : M256 := fun k => a k * b k + c k

/-! ## The engine -/

/-- The immutable members of `JacobiEquasion<nThreads>`; the two field buffers
`PhiGlobal` and `PhiNGlobal` are the mutable state, see `Mem`. -/
structure JacobiEquasion where
  /-- the template parameter `nThreads` -/
  nThreads : Nat
  /-- interior width -/
  nX : Nat
  /-- padded row stride -/
  nXArr : Nat
  /-- interior height -/
  nY : Nat
  /-- stored by the constructor, not used by the engine -/
  jArrLimit : Nat
  /-- number of sweeps -/
  nT : Nat
  /-- weight of the vertical neighbours -/
  A : ℚ
  /-- weight of the horizontal neighbours -/
  B : ℚ
  /-- weight of the diagonal neighbours -/
  C : ℚ
  /-- the source buffer -/
  D : Buf

/-- The constant `div8mask = ~7ul` of `countLine`. -/
def countLineMask : Nat := 18446744073709551608

/-- The bound of the vector loop and the start of the scalar loop of `countLine`,
`(nX+1)&div8mask + 1`; in C++ `+` binds tighter than `&`, so this is
`(nX+1) & (div8mask + 1)`. -/
def lineBound (eq : JacobiEquasion) : Nat :=
  wrap ((eq.nX : Int) + 1) &&& wrap ((countLineMask : Int) + 1)

/-- The value one iteration of the vector loop of `countLine` stores. -/
def vecResult (eq : JacobiEquasion) (Phi : Buf) (jArr i : Nat) : M256 :=
  let topL := mm256_loadu_ps Phi (wrap ((i : Int) - 1 + jArr - eq.nXArr))
  let top := mm256_loadu_ps Phi (wrap ((i : Int) + jArr - eq.nXArr))
  let topR := mm256_loadu_ps Phi (wrap ((i : Int) + 1 + jArr - eq.nXArr))
  let left := mm256_loadu_ps Phi (wrap ((i : Int) - 1 + jArr))
  let vD := mm256_loadu_ps eq.D (wrap ((i : Int) + jArr))
  let right := mm256_loadu_ps Phi (wrap ((i : Int) + 1 + jArr))
  let bottomL := mm256_loadu_ps Phi (wrap ((i : Int) - 1 + jArr + eq.nXArr))
  let bottom := mm256_loadu_ps Phi (wrap ((i : Int) + jArr + eq.nXArr))
  let bottomR := mm256_loadu_ps Phi (wrap ((i : Int) + 1 + jArr + eq.nXArr))
  let result0 := mm256_fmadd_ps (mm256_set1_ps eq.C)
    (mm256_add_ps (mm256_add_ps topL topR) (mm256_add_ps bottomL bottomR)) vD
  let result1 := mm256_fmadd_ps (mm256_set1_ps eq.A) (mm256_add_ps top bottom) result0
  mm256_fmadd_ps (mm256_set1_ps eq.B) (mm256_add_ps left right) result1

/-- The vector loop of `countLine`, `for (i = 1; i < bound; i += 8)`, entered at `i`
with `fuel` iterations allowed. -/
def countLineVec (eq : JacobiEquasion) (Phi : Buf) (jArr : Nat) : Nat → Nat → Buf → Buf
  | 0, _, PhiN => PhiN
  | fuel + 1, i, PhiN =>
    if i < lineBound eq then
      countLineVec eq Phi jArr fuel (wrap ((i : Int) + 8))
        (mm256_storeu_ps PhiN (wrap ((i : Int) + jArr)) (vecResult eq Phi jArr i))
    else PhiN

/-- The value one iteration of the scalar loop of `countLine` stores. -/
def scalarResult (eq : JacobiEquasion) (Phi : Buf) (jArr i : Nat) : ℚ :=
  eq.A * (Phi (wrap ((i : Int) + jArr - eq.nXArr)) + Phi (wrap ((i : Int) + jArr + eq.nXArr)))
  + eq.B * (Phi (wrap ((i : Int) - 1 + jArr)) + Phi (wrap ((i : Int) + 1 + jArr)))
  + eq.C * (Phi (wrap ((i : Int) - 1 + jArr - eq.nXArr)) + Phi (wrap ((i : Int) - 1 + jArr + eq.nXArr))
            + Phi (wrap ((i : Int) + 1 + jArr - eq.nXArr)) + Phi (wrap ((i : Int) + 1 + jArr + eq.nXArr)))
  + eq.D (wrap ((i : Int) + jArr))

/-- The scalar loop of `countLine`, `for (i = bound; i < nX+1; i++)`, entered at `i`
with `fuel` iterations allowed. -/
def countLineTail (eq : JacobiEquasion) (Phi : Buf) (jArr : Nat) : Nat → Nat → Buf → Buf
  | 0, _, PhiN => PhiN
  | fuel + 1, i, PhiN =>
    if i < wrap ((eq.nX : Int) + 1) then
      countLineTail eq Phi jArr fuel (wrap ((i : Int) + 1))
        (Function.update PhiN (wrap ((i : Int) + jArr)) (scalarResult eq Phi jArr i))
    else PhiN

/-- The method `countLine(Phi, PhiN, jArr)`: the contents of `PhiN` afterwards.  The
vector loop starts at column 1 and needs at most `lineBound` iterations, the
scalar loop at most `nX + 1`. -/
def countLine (eq : JacobiEquasion) (Phi PhiN : Buf) (jArr : Nat) : Buf :=
  countLineTail eq Phi jArr (wrap ((eq.nX : Int) + 1)) (lineBound eq)
    (countLineVec eq Phi jArr (lineBound eq) 1 PhiN)

/-- The row loop of `countIterations`, `for (j = jStart; j < jStart + jLength; j++)
countLine(Phi, PhiN, j*nXArr)`, entered at `j` with `fuel` iterations allowed. -/
def countRows (eq : JacobiEquasion) (Phi : Buf) (jEnd : Nat) : Nat → Nat → Buf → Buf
  | 0, _, PhiN => PhiN
  | fuel + 1, j, PhiN =>
    if j < jEnd then
      countRows eq Phi jEnd fuel (wrap ((j : Int) + 1))
        (countLine eq Phi PhiN (wrap ((j : Int) * eq.nXArr)))
    else PhiN

/-- One pass of a worker over its band `(jStart, jLength)`: the contents of `PhiN`
afterwards. -/
def countBand (eq : JacobiEquasion) (Phi PhiN : Buf) (jStart jLength : Nat) : Buf :=
  countRows eq Phi (wrap ((jStart : Int) + jLength)) jLength jStart PhiN

/-! ## Buffer sizes computed by `main` -/

/-- The constant `div8mask = 0xFFFFFFF8ul` of `main`. -/
def mainMask : Nat := 4294967288

/-- The padded row stride of `main`: `nXArr = (nX + 2 + 7) & div8mask`. -/
def mainNXArr (nX : Nat) : Nat := wrap ((nX : Int) + 2 + 7) &&& mainMask

/-- The engine as `main` constructs it from the grid sizes, the iteration count, the
coefficients and the source buffer; `nThreads` is the compile-time `CPU_CORES`. -/
def mainEq (nThreads nX nY nT : Nat) (A B C : ℚ) (D : Buf) : JacobiEquasion :=
  { nThreads := nThreads, nX := nX, nXArr := mainNXArr nX, nY := nY,
    jArrLimit := wrap ((wrap ((mainNXArr nX : Int) * wrap ((nY : Int) + 2)) : Int) - mainNXArr nX),
    nT := nT, A := A, B := B, C := C, D := D }

/-- Offset of the cell in column `i` of row `j` for row stride `nXArr`. -/
def cell (nXArr i j : Nat) : Nat := i + j * nXArr

/-! ## Row bands: `initThreads` and `solve` -/

/-- A worker thread: its rank (the template argument of `countIterations`) and its band. -/
structure Worker where
  /-- the template argument `rank` of `countIterations` -/
  rank : Nat
  /-- first row of the band -/
  jStart : Nat
  /-- number of rows of the band -/
  jLength : Nat
deriving DecidableEq

/-- The template recursion `initThreads<N>(jStart, jLength)`: the workers it starts, each
running `countIterations<nThreads-N>` on the band it is given. -/
def initThreads (eq : JacobiEquasion) : Nat → Nat → Nat → List Worker
  | 0, _, _ => []
  | 1, jStart, jLength =>
    [{ rank := eq.nThreads - 1, jStart := jStart,
       jLength := wrap ((jLength : Int) + (eq.nY % eq.nThreads : Nat)) }]
  | N + 2, jStart, jLength =>
    { rank := eq.nThreads - (N + 2), jStart := jStart, jLength := jLength }
      :: initThreads eq (N + 1) (wrap ((jStart : Int) + jLength)) jLength

/-- The workers of `solve`: those started by `initThreads<nThreads-1>(1 + jLength, jLength)`,
then the calling thread, which runs `countIterations<0>` on the band `(1, jLength)`. -/
def solveWorkers (eq : JacobiEquasion) : List Worker :=
  initThreads eq (eq.nThreads - 1) (wrap (1 + ((eq.nY / eq.nThreads : Nat) : Int)))
      (eq.nY / eq.nThreads)
    ++ [{ rank := 0, jStart := 1, jLength := eq.nY / eq.nThreads }]

/-- The band `(jStart, jLength)` of the worker of rank `r`, if `solve` has such a worker. -/
def bandOf (eq : JacobiEquasion) (r : Nat) : Option (Nat × Nat) :=
  ((solveWorkers eq).find? (fun w => w.rank == r)).map (fun w => (w.jStart, w.jLength))

/-! ## The convergence diagnostic: `delta` -/

/-- The intrinsic `_mm256_load_ps(P + off)`. -/
def mm256_load_ps (P : Buf) (off : Nat) : M256 := fun k => P (off + k.val)

/-- The intrinsic `_mm256_sub_ps`. -/
def mm256_sub_ps (a b : M256) : M256 := fun k => a k - b k

/-- The intrinsic `_mm256_max_ps`. -/
def mm256_max_ps (a b : M256) : M256 := fun k => max (a k) (b k)

/-- The operation `_mm256_and_ps(a, absMaskVec)` with `absMaskVec` all `0x7FFFFFFF`: the sign
bit of every lane is cleared, which is the absolute value. -/
def mm256_and_ps_absMask (a : M256) : M256 := fun k => |a k|

/-- The macro `_MM_SHUFFLE(z, y, x, w)`. -/
def MM_SHUFFLE (z y x w : Nat) : Nat := (z <<< 6) ||| (y <<< 4) ||| (x <<< 2) ||| w

/-- The intrinsic `_mm256_shuffle_ps(a, b, imm8)`: in each 128-bit half, lanes 0 and 1 are
selected from `a` by bits 1:0 and 3:2 of `imm8`, lanes 2 and 3 from `b` by bits 5:4 and 7:6. -/
def mm256_shuffle_ps (a b : M256) (imm8 : Nat) : M256 := fun k =>
  let half := k.val / 4
  let pos := k.val % 4
  let sel := (imm8 >>> (2 * pos)) % 4
  if pos < 2 then a ⟨(4 * half + sel) % 8, Nat.mod_lt _ (by decide)⟩
  else b ⟨(4 * half + sel) % 8, Nat.mod_lt _ (by decide)⟩

/-- The constant `std::numeric_limits<float>::min()`: the smallest positive normal `float`. -/
def fltMin : ℚ := 1 / 2 ^ 126

/-- The constant `div8mask = 0xFFFFFFF8ul` of `delta`. -/
def deltaMask : Nat := 4294967288

/-- The two field buffers `PhiGlobal` and `PhiNGlobal`. -/
structure Mem where
  /-- the buffer `PhiGlobal` -/
  PhiGlobal : Buf
  /-- the buffer `PhiNGlobal` -/
  PhiNGlobal : Buf

/-- The vector loop of `delta`, `for (i = jStart*nXArr; i < (absIndexEnd&div8mask); i += 8)`,
entered at `i` with `fuel` iterations allowed: the register `vMax` afterwards. -/
def deltaVec (m : Mem) (bound : Nat) : Nat → Nat → M256 → M256
  | 0, _, vMax => vMax
  | fuel + 1, i, vMax =>
    if i < bound then
      let phi := mm256_load_ps m.PhiGlobal i
      let phin := mm256_load_ps m.PhiNGlobal i
      let sub := mm256_sub_ps phi phin
      let dist := mm256_and_ps_absMask sub
      deltaVec m bound fuel (wrap ((i : Int) + 8)) (mm256_max_ps vMax dist)
    else vMax

/-- The scalar loop of `delta`, `for (i = absIndexEnd&div8mask; i < absIndexEnd; i++)`,
entered at `i` with `fuel` iterations allowed: the running maximum afterwards. -/
def deltaTail (m : Mem) (absIndexEnd : Nat) : Nat → Nat → ℚ → ℚ
  | 0, _, mx => mx
  | fuel + 1, i, mx =>
    if i < absIndexEnd then
      deltaTail m absIndexEnd fuel (wrap ((i : Int) + 1))
        (max mx |m.PhiGlobal i - m.PhiNGlobal i|)
    else mx

/-- The horizontal fold of `delta`: two shuffle-and-max steps, then the maximum of lanes 0
and 4. -/
def deltaFold (vMax : M256) : ℚ :=
  let vMaxShuffled := mm256_shuffle_ps vMax vMax (MM_SHUFFLE 2 3 0 1)
  let vMax1 := mm256_max_ps vMax vMaxShuffled
  let vMaxShuffled1 := mm256_shuffle_ps vMax1 vMax1 (MM_SHUFFLE 1 0 3 2)
  let vMax2 := mm256_max_ps vMax1 vMaxShuffled1
  max (vMax2 0) (vMax2 4)

/-- The method `delta(jStart, jLength)`. -/
def delta (eq : JacobiEquasion) (m : Mem) (jStart jLength : Nat) : ℚ :=
  let absIndexEnd := wrap ((wrap ((jLength : Int) + jStart) : Int) * eq.nXArr)
  let vMax := deltaVec m (absIndexEnd &&& deltaMask) (absIndexEnd &&& deltaMask)
    (wrap ((jStart : Int) * eq.nXArr)) (mm256_set1_ps fltMin)
  deltaTail m absIndexEnd absIndexEnd (absIndexEnd &&& deltaMask) (deltaFold vMax)

/-! ## The sweeps: `countIterations` and `solve` -/

/-- The state of a running solve. -/
structure State where
  /-- the two field buffers -/
  mem : Mem
  /-- per rank, whether the local pointers `(Phi, PhiN)` of that worker currently are
  `(PhiNGlobal, PhiGlobal)`; they start as `(PhiGlobal, PhiNGlobal)` and `std::swap`
  exchanges them -/
  swapped : Nat → Bool
  /-- the array `deltas` -/
  deltas : Nat → ℚ
  /-- the values written to `std::cout`, in order -/
  out : List ℚ

/-- The state in which `solve` starts: the local pointers of every worker are
`(PhiGlobal, PhiNGlobal)`, nothing has been printed; `deltas0` is the (indeterminate) initial
content of the array `deltas`. -/
def initState (Phi PhiN : Buf) (deltas0 : Nat → ℚ) : State :=
  { mem := { PhiGlobal := Phi, PhiNGlobal := PhiN }, swapped := fun _ => false,
    deltas := deltas0, out := [] }

/-- What a worker does between the two barriers of one iteration of `countIterations`: the
row loop over its band with its current local pointers, `std::swap(Phi, PhiN)`, and, unless
built with `NO_DELTA`, `deltas[rank] = delta(jStart, jLength)`. -/
def workerPhase (eq : JacobiEquasion) (noDelta : Bool) (s : State) (w : Worker) : State :=
  let mem1 : Mem :=
    if s.swapped w.rank then
      { PhiGlobal := countBand eq s.mem.PhiNGlobal s.mem.PhiGlobal w.jStart w.jLength,
        PhiNGlobal := s.mem.PhiNGlobal }
    else
      { PhiGlobal := s.mem.PhiGlobal,
        PhiNGlobal := countBand eq s.mem.PhiGlobal s.mem.PhiNGlobal w.jStart w.jLength }
  { mem := mem1,
    swapped := Function.update s.swapped w.rank (!s.swapped w.rank),
    deltas := if noDelta then s.deltas
              else Function.update s.deltas w.rank (delta eq mem1 w.jStart w.jLength),
    out := s.out }

/-- The reduction the worker of rank 0 prints:
`std::reduce(deltas.begin(), deltas.end(), numeric_limits<float>::min(), max)`. -/
def reduceDeltas (eq : JacobiEquasion) (deltas : Nat → ℚ) : ℚ :=
  (List.range eq.nThreads).foldl (fun a r => max a (deltas r)) fltMin

/-- One iteration of `countIterations` across all workers: between the two barriers the
workers run in the given order; after the second barrier the worker of rank 0 prints the
reduced delta, unless built with `NO_DELTA`. -/
def iteration (eq : JacobiEquasion) (noDelta : Bool) (order : List Worker) (s : State) : State :=
  let s1 := order.foldl (workerPhase eq noDelta) s
  if noDelta then s1
  else { mem := s1.mem, swapped := s1.swapped, deltas := s1.deltas,
         out := s1.out ++ [reduceDeltas eq s1.deltas] }

/-- The first `n` iterations of the solve; `sched k` is the order in which the workers run
in iteration `k`. -/
def run (eq : JacobiEquasion) (noDelta : Bool) (sched : Nat → List Worker) : Nat → State → State
  | 0, s => s
  | n + 1, s => iteration eq noDelta (sched n) (run eq noDelta sched n s)

/-- The method `solve()`: all `nT` iterations, then the join. -/
def solve (eq : JacobiEquasion) (noDelta : Bool) (sched : Nat → List Worker) (s : State) : State :=
  run eq noDelta sched eq.nT s

/-- A schedule is fair when in every iteration every worker of `solve` runs exactly once. -/
def FairSchedule (eq : JacobiEquasion) (sched : Nat → List Worker) : Prop :=
  ∀ k, (sched k).Perm (solveWorkers eq)

/-- The schedule in which the workers run in the order `solve` lists them. -/
def rankOrder (eq : JacobiEquasion) : Nat → List Worker := fun _ => solveWorkers eq

/-! ## Auxiliary descriptions used in the statements -/

/-- The nine-point update at the flat offset `p`, read from `Phi` and the source buffer. -/
def stencil (eq : JacobiEquasion) (Phi : Buf) (p : Nat) : ℚ :=
  eq.A * (Phi (p - eq.nXArr) + Phi (p + eq.nXArr))
  + eq.B * (Phi (p - 1) + Phi (p + 1))
  + eq.C * (Phi (p - 1 - eq.nXArr) + Phi (p + 1 - eq.nXArr)
            + Phi (p - 1 + eq.nXArr) + Phi (p + 1 + eq.nXArr))
  + eq.D p

/-- Column after the last one the vector loop writes when entered at column `i`. -/
def vecEnd (i m : Nat) : Nat := if i < m then i + 8 * ((m - i + 7) / 8) else i

/-- The worker of rank `r` as the partition of `solve` defines it, for `r < nThreads`. -/
def workerOf (eq : JacobiEquasion) (r : Nat) : Worker :=
  { rank := r, jStart := 1 + r * (eq.nY / eq.nThreads),
    jLength := if r + 1 = eq.nThreads then eq.nY / eq.nThreads + eq.nY % eq.nThreads
               else eq.nY / eq.nThreads }

/-- Whether `countLine` writes column `c` of its row. -/
def lineWrites (eq : JacobiEquasion) (c : Nat) : Bool :=
  (decide (lineBound eq ≤ c) && decide (c < eq.nX + 1))
    || (decide (1 ≤ c) && decide (c < vecEnd 1 (lineBound eq)))

/-- The value `countLine` leaves in column `c` of the row at offset `jArr`, if it writes it. -/
def lineValue (eq : JacobiEquasion) (Phi : Buf) (jArr c : Nat) : ℚ :=
  if lineBound eq ≤ c ∧ c < eq.nX + 1 then scalarResult eq Phi jArr c
  else stencil eq Phi (c + jArr)

/-- What a sweep over the rows `lo ≤ j < hi` leaves in the output buffer: in each of these
rows the columns `countLine` writes receive the value it computes, every other cell is left
as it was. -/
def sweepFn (eq : JacobiEquasion) (Phi PhiN : Buf) (lo hi : Nat) : Buf := fun p =>
  if lo ≤ p / eq.nXArr ∧ p / eq.nXArr < hi ∧ lineWrites eq (p % eq.nXArr) = true then
    lineValue eq Phi (p / eq.nXArr * eq.nXArr) (p % eq.nXArr)
  else PhiN p

/-- One sweep with fixed roles: the workers of `ws` process their bands one after the other,
all reading `Phi` and writing `PhiN`. -/
def sweepWorkers (eq : JacobiEquasion) (Phi PhiN : Buf) (ws : List Worker) : Buf :=
  ws.foldl (fun acc w => countBand eq Phi acc w.jStart w.jLength) PhiN

/-- Whether row `j` lies in the band of one of the workers `ws`. -/
def covered (ws : List Worker) (j : Nat) : Bool :=
  ws.any (fun w => decide (w.jStart ≤ j) && decide (j < w.jStart + w.jLength))

/-- The field buffers after one sweep of the workers `ws` in which, when `odd` is false,
`PhiGlobal` is read and `PhiNGlobal` is written, and the other way round when it is true. -/
def sweepStep (eq : JacobiEquasion) (odd : Bool) (m : Mem) (ws : List Worker) : Mem :=
  if odd then
    { PhiGlobal := sweepWorkers eq m.PhiNGlobal m.PhiGlobal ws, PhiNGlobal := m.PhiNGlobal }
  else
    { PhiGlobal := m.PhiGlobal, PhiNGlobal := sweepWorkers eq m.PhiGlobal m.PhiNGlobal ws }

/-- The field buffers after `k` sweeps over the rows `1 .. nY`, sweep `k` reading
`PhiGlobal` and writing `PhiNGlobal` when `k` is even and the other way round when `k` is
odd. -/
def sweepsMem (eq : JacobiEquasion) : Nat → Mem → Mem
  | 0, m => m
  | k + 1, m =>
    if k % 2 = 1 then
      { PhiGlobal := sweepFn eq (sweepsMem eq k m).PhiNGlobal (sweepsMem eq k m).PhiGlobal
          1 (eq.nY + 1),
        PhiNGlobal := (sweepsMem eq k m).PhiNGlobal }
    else
      { PhiGlobal := (sweepsMem eq k m).PhiGlobal,
        PhiNGlobal := sweepFn eq (sweepsMem eq k m).PhiGlobal (sweepsMem eq k m).PhiNGlobal
          1 (eq.nY + 1) }

/-- The engine `eq` instantiated with `W` worker threads. -/
def withThreads (eq : JacobiEquasion) (W : Nat) : JacobiEquasion :=
  { nThreads := W, nX := eq.nX, nXArr := eq.nXArr, nY := eq.nY, jArrLimit := eq.jArrLimit,
    nT := eq.nT, A := eq.A, B := eq.B, C := eq.C, D := eq.D }

/-- The maximum of `|PhiGlobal[c] - PhiNGlobal[c]|` over the cells `lo ≤ c < hi` of a band,
as the spec words the result of the diagnostic (the band is not empty and the differences are
not negative). -/
def bandMaxSpec (m : Mem) (lo hi : Nat) : ℚ :=
  ((List.range' lo (hi - lo)).map (fun c => |m.PhiGlobal c - m.PhiNGlobal c|)).foldr max 0

/-- The buffer `main` hands to `dump` after `solve` has returned: `PhiN`, the buffer it
passed to the constructor as `PhiNGlobal`.  `main` starts from two zero-filled buffers. -/
def mainDumped (eq : JacobiEquasion) (sched : Nat → List Worker) (deltas0 : Nat → ℚ) : Buf :=
  (solve eq false sched (initState (fun _ => 0) (fun _ => 0) deltas0)).mem.PhiNGlobal

/-- A buffer of `n` cells is zero in every cell; nothing is said of the memory around it. -/
def ZeroOn (n : Nat) (f : Buf) : Prop := ∀ p, p < n → f p = 0

/-- The update of the spec for the interior cell in column `i` of row `j`:
`A·(cur[i,j-1] + cur[i,j+1]) + B·(cur[i-1,j] + cur[i+1,j])
 + C·(cur[i-1,j-1] + cur[i+1,j-1] + cur[i-1,j+1] + cur[i+1,j+1]) + source[i,j]`. -/
def stencilSpec (A B C : ℚ) (D cur : Buf) (nXArr i j : Nat) : ℚ :=
  A * (cur (cell nXArr i (j - 1)) + cur (cell nXArr i (j + 1)))
  + B * (cur (cell nXArr (i - 1) j) + cur (cell nXArr (i + 1) j))
  + C * (cur (cell nXArr (i - 1) (j - 1)) + cur (cell nXArr (i + 1) (j - 1))
         + cur (cell nXArr (i - 1) (j + 1)) + cur (cell nXArr (i + 1) (j + 1)))
  + D (cell nXArr i j)

/-- The field of the spec after `k` sweeps, started from `f0`: every interior cell (column
`1 .. nX`, row `1 .. nY`) is updated from the previous iterate, every other cell keeps its
value. -/
def fieldSpec (eq : JacobiEquasion) (f0 : Buf) : Nat → Buf
  | 0 => f0
  | k + 1 => fun p =>
    if 1 ≤ p % eq.nXArr ∧ p % eq.nXArr ≤ eq.nX ∧ 1 ≤ p / eq.nXArr ∧ p / eq.nXArr ≤ eq.nY then
      stencilSpec eq.A eq.B eq.C eq.D (fieldSpec eq f0 k) eq.nXArr (p % eq.nXArr) (p / eq.nXArr)
    else fieldSpec eq f0 k p

/-! ## Further sizes computed by `main` -/

/-- The row count of `main`: `nYArr = nY + 2`. -/
def mainNYArr (nY : Nat) : Nat := wrap ((nY : Int) + 2)

/-- The buffer size of `main`: `arrSize = nXArr*nYArr`. -/
def mainArrSize (nX nY : Nat) : Nat := wrap ((mainNXArr nX : Int) * mainNYArr nY)

/-! ## The cells `countLine` touches -/

/-- The eight cell offsets of a vector load or store at offset `off`. -/
def lanes (off : Nat) : List Nat := (List.range 8).map (fun k => off + k)

/-- The offsets one iteration of the vector loop of `countLine` loads from `Phi`: the loads
`topL`, `top`, `topR`, `left`, `right`, `bottomL`, `bottom`, `bottomR`. -/
def vecReads (eq : JacobiEquasion) (jArr i : Nat) : List Nat :=
  lanes (wrap ((i : Int) - 1 + jArr - eq.nXArr)) ++ lanes (wrap ((i : Int) + jArr - eq.nXArr))
  ++ lanes (wrap ((i : Int) + 1 + jArr - eq.nXArr)) ++ lanes (wrap ((i : Int) - 1 + jArr))
  ++ lanes (wrap ((i : Int) + 1 + jArr)) ++ lanes (wrap ((i : Int) - 1 + jArr + eq.nXArr))
  ++ lanes (wrap ((i : Int) + jArr + eq.nXArr)) ++ lanes (wrap ((i : Int) + 1 + jArr + eq.nXArr))

/-- The offsets one iteration of the vector loop of `countLine` loads from `D` (the load
`vD`); the store of the iteration goes to the same offsets of `PhiN`. -/
def vecCells (jArr i : Nat) : List Nat := lanes (wrap ((i : Int) + jArr))

/-- The offsets one iteration of the scalar loop of `countLine` reads from `Phi`, in the
order of the expression. -/
def scalarReads (eq : JacobiEquasion) (jArr i : Nat) : List Nat :=
  [wrap ((i : Int) + jArr - eq.nXArr), wrap ((i : Int) + jArr + eq.nXArr),
   wrap ((i : Int) - 1 + jArr), wrap ((i : Int) + 1 + jArr),
   wrap ((i : Int) - 1 + jArr - eq.nXArr), wrap ((i : Int) - 1 + jArr + eq.nXArr),
   wrap ((i : Int) + 1 + jArr - eq.nXArr), wrap ((i : Int) + 1 + jArr + eq.nXArr)]

/-- The offset one iteration of the scalar loop of `countLine` reads from `D`; it writes the
same offset of `PhiN`. -/
def scalarCells (jArr i : Nat) : List Nat := [wrap ((i : Int) + jArr)]

/-- The offsets the vector loop of `countLine` touches, `touch i` being those of the
iteration at column `i`; the control flow is that of `countLineVec`. -/
def vecLoopTrace (eq : JacobiEquasion) (touch : Nat → List Nat) : Nat → Nat → List Nat
  | 0, _ => []
  | fuel + 1, i =>
    if i < lineBound eq then touch i ++ vecLoopTrace eq touch fuel (wrap ((i : Int) + 8))
    else []

/-- The offsets the scalar loop of `countLine` touches, `touch i` being those of the
iteration at column `i`; the control flow is that of `countLineTail`. -/
def tailLoopTrace (eq : JacobiEquasion) (touch : Nat → List Nat) : Nat → Nat → List Nat
  | 0, _ => []
  | fuel + 1, i =>
    if i < wrap ((eq.nX : Int) + 1) then
      touch i ++ tailLoopTrace eq touch fuel (wrap ((i : Int) + 1))
    else []

/-- The offsets of `PhiN` the vector loop of `countLine(Phi, PhiN, jArr)` stores to. -/
def vecLoopWrites (eq : JacobiEquasion) (jArr : Nat) : List Nat :=
  vecLoopTrace eq (vecCells jArr) (lineBound eq) 1

/-- The offsets of `PhiN` the scalar loop of `countLine(Phi, PhiN, jArr)` writes. -/
def tailLoopWrites (eq : JacobiEquasion) (jArr : Nat) : List Nat :=
  tailLoopTrace eq (scalarCells jArr) (wrap ((eq.nX : Int) + 1)) (lineBound eq)

/-- The offsets of `Phi` that `countLine(Phi, PhiN, jArr)` reads. -/
def countLineReads (eq : JacobiEquasion) (jArr : Nat) : List Nat :=
  vecLoopTrace eq (vecReads eq jArr) (lineBound eq) 1
  ++ tailLoopTrace eq (scalarReads eq jArr) (wrap ((eq.nX : Int) + 1)) (lineBound eq)

/-- The offsets of `D` that `countLine(Phi, PhiN, jArr)` reads; they are the offsets of
`PhiN` it writes. -/
def countLineCells (eq : JacobiEquasion) (jArr : Nat) : List Nat :=
  vecLoopWrites eq jArr ++ tailLoopWrites eq jArr

/-! ## The text dump -/

/-- What `dump` sends to the output stream, piece by piece. -/
inductive Tok where
  /-- a value, `out << mtx[i + jArr]` -/
  | num (x : ℚ)
  /-- the separator, `out << " "` -/
  | sp
  /-- the end of a line -/
  | nl

/-- The inner loop of `dump`, `for (i = 1; i < nXArr-1; i++) out << mtx[i + jArr] << " "`,
entered at `i` with `fuel` iterations allowed. -/
def dumpRow (mtx : Buf) (nXArr jArr : Nat) : Nat → Nat → List Tok
  | 0, _ => []
  | fuel + 1, i =>
    if i < wrap ((nXArr : Int) - 1) then
      Tok.num (mtx (wrap ((i : Int) + jArr))) :: Tok.sp
        :: dumpRow mtx nXArr jArr fuel (wrap ((i : Int) + 1))
    else []

/-- The outer loop of `dump`, `for (jArr = nXArr; jArr < nXArr*(nYArr-1); jArr += nXArr)`,
entered at `jArr` with `fuel` iterations allowed. -/
def dumpRows (mtx : Buf) (nXArr nYArr : Nat) : Nat → Nat → List Tok
  | 0, _ => []
  | fuel + 1, jArr =>
    if jArr < wrap ((nXArr : Int) * wrap ((nYArr : Int) - 1)) then
      dumpRow mtx nXArr jArr nXArr 1 ++ Tok.nl
        :: dumpRows mtx nXArr nYArr fuel (wrap ((jArr : Int) + nXArr))
    else []

/-- The function `dump(mtx, nXArr, nYArr, filename)`: the content of the file it writes. -/
def dump (mtx : Buf) (nXArr nYArr : Nat) : List Tok :=
  dumpRows mtx nXArr nYArr nYArr nXArr

/-- The line of the spec for grid row `r`: the values `mtx[i + r*nXArr]` for
`i = 1 .. nXArr-2` in column order, each followed by a space, then the end of the line. -/
def dumpLineSpec (mtx : Buf) (nXArr r : Nat) : List Tok :=
  (List.range' 1 (nXArr - 2)).flatMap (fun i => [Tok.num (mtx (i + r * nXArr)), Tok.sp])
    ++ [Tok.nl]

/-- The dump of the spec: the lines of the grid rows `r = 1 .. nYArr-2`, in order. -/
def dumpSpec (mtx : Buf) (nXArr nYArr : Nat) : List Tok :=
  (List.range' 1 (nYArr - 2)).flatMap (fun r => dumpLineSpec mtx nXArr r)

/-- Whether a piece of the output ends a line. -/
def Tok.isNl : Tok → Bool
  | Tok.nl => true
  | _ => false

/-! ## Arithmetic of the masks -/

theorem wrap_natCast (n : Nat) (h : n < 18446744073709551616) : wrap (n : Int) = n := by
  unfold wrap; omega

theorem land_countLineMask_succ (x : Nat) (hx : x < 18446744073709551616) :
    x &&& 18446744073709551609 = 8 * (x / 8) + x % 2 := by
  have h1 := @Nat.and_div_two x 18446744073709551609
  have h2 := @Nat.and_div_two (x / 2) (18446744073709551609 / 2)
  have h3 := @Nat.and_div_two (x / 2 / 2) (18446744073709551609 / 2 / 2)
  have e : (18446744073709551609 / 2 / 2 / 2 : Nat) = 2 ^ 61 - 1 := by norm_num
  rw [e, Nat.and_pow_two_sub_one_eq_mod] at h3
  have b0 : (x &&& 18446744073709551609) % 2 = 1 ↔ x % 2 = 1 := by
    rw [Nat.and_mod_two_eq_one]; omega
  have b1 : ¬ (x / 2 &&& 18446744073709551609 / 2) % 2 = 1 := by
    rw [Nat.and_mod_two_eq_one]; omega
  have b2 : ¬ (x / 2 / 2 &&& 18446744073709551609 / 2 / 2) % 2 = 1 := by
    rw [Nat.and_mod_two_eq_one]; omega
  rw [← h1] at b1 h2
  rw [← h2] at b2 h3
  omega

theorem land_mainMask (x : Nat) (hx : x < 4294967296) :
    x &&& 4294967288 = 8 * (x / 8) := by
  have h1 := @Nat.and_div_two x 4294967288
  have h2 := @Nat.and_div_two (x / 2) (4294967288 / 2)
  have h3 := @Nat.and_div_two (x / 2 / 2) (4294967288 / 2 / 2)
  have e : (4294967288 / 2 / 2 / 2 : Nat) = 2 ^ 29 - 1 := by norm_num
  rw [e, Nat.and_pow_two_sub_one_eq_mod] at h3
  have b0 : ¬ (x &&& 4294967288) % 2 = 1 := by
    rw [Nat.and_mod_two_eq_one]; omega
  have b1 : ¬ (x / 2 &&& 4294967288 / 2) % 2 = 1 := by
    rw [Nat.and_mod_two_eq_one]; omega
  have b2 : ¬ (x / 2 / 2 &&& 4294967288 / 2 / 2) % 2 = 1 := by
    rw [Nat.and_mod_two_eq_one]; omega
  rw [← h1] at b1 h2
  rw [← h2] at b2 h3
  omega

theorem lineBound_eq (eq : JacobiEquasion) (h : eq.nX + 1 < 18446744073709551616) :
    lineBound eq = 8 * ((eq.nX + 1) / 8) + (eq.nX + 1) % 2 := by
  have e1 : wrap ((eq.nX : Int) + 1) = eq.nX + 1 := by unfold wrap; omega
  have e2 : wrap ((countLineMask : Int) + 1) = 18446744073709551609 := by
    unfold wrap countLineMask; omega
  rw [lineBound, e1, e2, land_countLineMask_succ _ h]

theorem mainNXArr_eq (nX : Nat) (h : nX + 9 < 4294967296) :
    mainNXArr nX = 8 * ((nX + 9) / 8) := by
  have e1 : wrap ((nX : Int) + 2 + 7) = nX + 9 := by unfold wrap; omega
  rw [mainNXArr, e1, mainMask, land_mainMask _ h]

/-! ## What one call of `countLine` leaves in the output buffer -/

theorem vecResult_lane (eq : JacobiEquasion) (Phi : Buf) (jArr i : Nat) (k : Fin 8)
    (hi : 1 ≤ i) (hj : eq.nXArr ≤ jArr)
    (hb : i + jArr + eq.nXArr + 2 ≤ 18446744073709551616) :
    vecResult eq Phi jArr i k = stencil eq Phi (i + jArr + k.val) := by
  have hk := k.isLt
  have e1 : wrap ((i : Int) - 1 + jArr - eq.nXArr) + k.val = i + jArr + k.val - 1 - eq.nXArr := by
    unfold wrap; omega
  have e2 : wrap ((i : Int) + jArr - eq.nXArr) + k.val = i + jArr + k.val - eq.nXArr := by
    unfold wrap; omega
  have e3 : wrap ((i : Int) + 1 + jArr - eq.nXArr) + k.val = i + jArr + k.val + 1 - eq.nXArr := by
    unfold wrap; omega
  have e4 : wrap ((i : Int) - 1 + jArr) + k.val = i + jArr + k.val - 1 := by
    unfold wrap; omega
  have e5 : wrap ((i : Int) + jArr) + k.val = i + jArr + k.val := by
    unfold wrap; omega
  have e6 : wrap ((i : Int) + 1 + jArr) + k.val = i + jArr + k.val + 1 := by
    unfold wrap; omega
  have e7 : wrap ((i : Int) - 1 + jArr + eq.nXArr) + k.val = i + jArr + k.val - 1 + eq.nXArr := by
    unfold wrap; omega
  have e8 : wrap ((i : Int) + jArr + eq.nXArr) + k.val = i + jArr + k.val + eq.nXArr := by
    unfold wrap; omega
  have e9 : wrap ((i : Int) + 1 + jArr + eq.nXArr) + k.val = i + jArr + k.val + 1 + eq.nXArr := by
    unfold wrap; omega
  simp only [vecResult, mm256_fmadd_ps, mm256_add_ps, mm256_loadu_ps, mm256_set1_ps, stencil,
    e1, e2, e3, e4, e5, e6, e7, e8, e9]
  ring

theorem scalarResult_eq (eq : JacobiEquasion) (Phi : Buf) (jArr i : Nat)
    (hi : 1 ≤ i) (hj : eq.nXArr ≤ jArr)
    (hb : i + jArr + eq.nXArr + 2 ≤ 18446744073709551616) :
    scalarResult eq Phi jArr i = stencil eq Phi (i + jArr) := by
  have e1 : wrap ((i : Int) - 1 + jArr - eq.nXArr) = i + jArr - 1 - eq.nXArr := by
    unfold wrap; omega
  have e2 : wrap ((i : Int) + jArr - eq.nXArr) = i + jArr - eq.nXArr := by
    unfold wrap; omega
  have e3 : wrap ((i : Int) + 1 + jArr - eq.nXArr) = i + jArr + 1 - eq.nXArr := by
    unfold wrap; omega
  have e4 : wrap ((i : Int) - 1 + jArr) = i + jArr - 1 := by
    unfold wrap; omega
  have e5 : wrap ((i : Int) + jArr) = i + jArr := by
    unfold wrap; omega
  have e6 : wrap ((i : Int) + 1 + jArr) = i + jArr + 1 := by
    unfold wrap; omega
  have e7 : wrap ((i : Int) - 1 + jArr + eq.nXArr) = i + jArr - 1 + eq.nXArr := by
    unfold wrap; omega
  have e8 : wrap ((i : Int) + jArr + eq.nXArr) = i + jArr + eq.nXArr := by
    unfold wrap; omega
  have e9 : wrap ((i : Int) + 1 + jArr + eq.nXArr) = i + jArr + 1 + eq.nXArr := by
    unfold wrap; omega
  simp only [scalarResult, stencil, e1, e2, e3, e4, e5, e6, e7, e8, e9]
  ring

/-- Closed form of the vector loop: the columns from `i` up to `vecEnd` receive the
stencil value, every other cell is left as it was. -/
theorem countLineVec_apply (eq : JacobiEquasion) (Phi : Buf) (jArr : Nat)
    (hj : eq.nXArr ≤ jArr)
    (hb : lineBound eq + jArr + eq.nXArr + 1 ≤ 18446744073709551616)
    (hb8 : lineBound eq + 8 ≤ 18446744073709551616) :
    ∀ (fuel i : Nat) (PhiN : Buf) (p : Nat), 1 ≤ i → lineBound eq ≤ i + 8 * fuel →
      countLineVec eq Phi jArr fuel i PhiN p
        = if i + jArr ≤ p ∧ p < vecEnd i (lineBound eq) + jArr then stencil eq Phi p
          else PhiN p := by
  intro fuel
  induction fuel with
  | zero =>
    intro i PhiN p _ hf
    have : vecEnd i (lineBound eq) = i := by unfold vecEnd; rw [if_neg (by omega)]
    rw [this, countLineVec, if_neg (by omega)]
  | succ fuel ih =>
    intro i PhiN p hi hf
    rw [countLineVec]
    by_cases hlt : i < lineBound eq
    · have e8 : wrap ((i : Int) + 8) = i + 8 := by unfold wrap; omega
      have ej : wrap ((i : Int) + jArr) = i + jArr := by unfold wrap; omega
      have hend : vecEnd (i + 8) (lineBound eq) = vecEnd i (lineBound eq) := by
        unfold vecEnd; split_ifs <;> omega
      have hge : i + 8 ≤ vecEnd i (lineBound eq) := by
        unfold vecEnd; split_ifs; omega
      rw [if_pos hlt, e8, ej, ih (i + 8) _ p (by omega) (by omega), hend]
      by_cases h1 : i + 8 + jArr ≤ p
      · by_cases h2 : p < vecEnd i (lineBound eq) + jArr
        · rw [if_pos ⟨h1, h2⟩, if_pos ⟨by omega, h2⟩]
        · rw [if_neg (fun h => h2 h.2), if_neg (fun h => h2 h.2)]
          unfold mm256_storeu_ps
          rw [dif_neg (by omega)]
      · rw [if_neg (fun h => h1 h.1)]
        unfold mm256_storeu_ps
        by_cases h3 : i + jArr ≤ p
        · rw [dif_pos ⟨h3, by omega⟩, if_pos ⟨h3, by omega⟩,
            vecResult_lane eq Phi jArr i _ hi hj (by omega)]
          congr 1
          simp only []
          omega
        · rw [dif_neg (fun h => h3 h.1), if_neg (fun h => h3 h.1)]
    · have : vecEnd i (lineBound eq) = i := by unfold vecEnd; rw [if_neg hlt]
      rw [if_neg hlt, this, if_neg (by omega)]

/-- Closed form of the scalar loop: the columns from `i` up to `nX` receive the value
the loop body computes, every other cell is left as it was. -/
theorem countLineTail_apply (eq : JacobiEquasion) (Phi : Buf) (jArr : Nat)
    (hb : eq.nX + 1 + jArr < 18446744073709551616) :
    ∀ (fuel i : Nat) (PhiN : Buf) (p : Nat), eq.nX + 1 ≤ i + fuel →
      countLineTail eq Phi jArr fuel i PhiN p
        = if i + jArr ≤ p ∧ p < eq.nX + 1 + jArr then scalarResult eq Phi jArr (p - jArr)
          else PhiN p := by
  have en : wrap ((eq.nX : Int) + 1) = eq.nX + 1 := by unfold wrap; omega
  intro fuel
  induction fuel with
  | zero =>
    intro i PhiN p hf
    rw [countLineTail, if_neg (by omega)]
  | succ fuel ih =>
    intro i PhiN p hf
    rw [countLineTail, en]
    by_cases hlt : i < eq.nX + 1
    · have e1 : wrap ((i : Int) + 1) = i + 1 := by unfold wrap; omega
      have ej : wrap ((i : Int) + jArr) = i + jArr := by unfold wrap; omega
      rw [if_pos hlt, e1, ej, ih (i + 1) _ p (by omega)]
      by_cases h1 : i + 1 + jArr ≤ p ∧ p < eq.nX + 1 + jArr
      · rw [if_pos h1, if_pos ⟨by omega, h1.2⟩]
      · rw [if_neg h1]
        by_cases h2 : p = i + jArr
        · subst h2
          rw [Function.update_same, if_pos ⟨le_refl _, by omega⟩]
          congr 1
          omega
        · rw [Function.update_noteq h2, if_neg (by omega)]
    · rw [if_neg hlt, if_neg (by omega)]


/-! ## The bands of `solve` -/

theorem find?_eq_some_of_unique {α : Type} (p : α → Bool) (a : α) :
    ∀ (l : List α), a ∈ l → p a = true → (∀ b ∈ l, p b = true → b = a) → l.find? p = some a := by
  intro l
  induction l with
  | nil => intro h; cases h
  | cons x xs ih =>
    intro hmem hp huniq
    by_cases hx : p x = true
    · have : x = a := huniq x (List.mem_cons_self _ _) hx
      rw [List.find?_cons_of_pos _ hx, this]
    · rw [List.find?_cons_of_neg _ hx]
      rcases List.mem_cons.mp hmem with h | h
      · exact absurd (h ▸ hp) hx
      · exact ih h hp (fun b hb => huniq b (List.mem_cons_of_mem _ hb))

theorem mem_initThreads (eq : JacobiEquasion) (hR : eq.nY < 18446744073709551616) :
    ∀ (N jStart : Nat), N < eq.nThreads →
      jStart = 1 + (eq.nThreads - N) * (eq.nY / eq.nThreads) →
      ∀ w, w ∈ initThreads eq N jStart (eq.nY / eq.nThreads)
        ↔ ∃ r, eq.nThreads - N ≤ r ∧ r < eq.nThreads ∧ w = workerOf eq r := by
  have hdm := Nat.div_add_mod eq.nY eq.nThreads
  unfold workerOf
  obtain ⟨L, hL⟩ : ∃ L, eq.nY / eq.nThreads = L := ⟨_, rfl⟩
  obtain ⟨M, hM⟩ : ∃ M, eq.nY % eq.nThreads = M := ⟨_, rfl⟩
  rw [hL, hM] at hdm
  simp only [hL, hM]
  intro N
  induction N using Nat.strong_induction_on with
  | _ N ih =>
    intro jStart hN hjs w
    match N, ih with
    | 0, _ =>
      simp only [initThreads, List.not_mem_nil, false_iff]
      rintro ⟨r, h1, h2, _⟩
      omega
    | 1, _ =>
      have hdiv : L * 2 ≤ eq.nThreads * L := by
        rw [Nat.mul_comm eq.nThreads]; exact Nat.mul_le_mul_left _ (by omega)
      have e : wrap ((L : Int) + (M : Int)) = L + M := by
        unfold wrap; omega
      simp only [initThreads, List.mem_singleton, hM, e]
      constructor
      · intro h
        refine ⟨eq.nThreads - 1, le_refl _, by omega, ?_⟩
        rw [h, if_pos (by omega), hjs]
      · rintro ⟨r, h1, h2, h3⟩
        have : r = eq.nThreads - 1 := by omega
        subst this
        rw [h3, if_pos (by omega), hjs]
    | N + 2, ih =>
      have hsub : eq.nThreads - (N + 1) = eq.nThreads - (N + 2) + 1 := by omega
      have hmul : (eq.nThreads - (N + 2) + 1) * L = (eq.nThreads - (N + 2)) * L + L := by ring
      have hle : (eq.nThreads - (N + 2) + 1) * L ≤ eq.nThreads * L :=
        Nat.mul_le_mul_right _ (by omega)
      have e : wrap ((jStart : Int) + (L : Int)) = 1 + (eq.nThreads - (N + 1)) * L := by
        rw [hsub, hmul, hjs]
        rcases Nat.eq_zero_or_pos L with h | h
        · subst h; unfold wrap; simp
        · have h2 : (eq.nThreads - (N + 2) + 1 + 1) * L ≤ eq.nThreads * L :=
            Nat.mul_le_mul_right _ (by omega)
          have h3 : (eq.nThreads - (N + 2) + 1 + 1) * L
              = (eq.nThreads - (N + 2)) * L + L + L := by ring
          unfold wrap; omega
      simp only [initThreads, List.mem_cons]
      rw [e, ih (N + 1) (by omega) _ (by omega) rfl w]
      constructor
      · rintro (h | ⟨r, h1, h2, h3⟩)
        · refine ⟨eq.nThreads - (N + 2), le_refl _, by omega, ?_⟩
          rw [h, if_neg (by omega), hjs]
        · exact ⟨r, by omega, h2, h3⟩
      · rintro ⟨r, h1, h2, h3⟩
        by_cases hr : r = eq.nThreads - (N + 2)
        · left
          rw [h3, hr, if_neg (by omega), hjs]
        · right
          exact ⟨r, by omega, h2, h3⟩

theorem mem_solveWorkers (eq : JacobiEquasion) (hW : 1 ≤ eq.nThreads)
    (hR : eq.nY < 18446744073709551616) (w : Worker) :
    w ∈ solveWorkers eq ↔ ∃ r, r < eq.nThreads ∧ w = workerOf eq r := by
  unfold solveWorkers
  rw [List.mem_append, List.mem_singleton]
  by_cases h1 : eq.nThreads = 1
  · have h0 : eq.nThreads - 1 = 0 := by omega
    rw [h0]
    simp only [initThreads, List.not_mem_nil, false_or]
    constructor
    · intro h
      refine ⟨0, by omega, ?_⟩
      rw [h, workerOf, if_pos (by omega), h1]
      simp [Nat.mod_one]
    · rintro ⟨r, hr, h⟩
      have : r = 0 := by omega
      subst this
      rw [h, workerOf, if_pos (by omega), h1]
      simp [Nat.mod_one]
  · have hdl : eq.nY / eq.nThreads ≤ eq.nY := Nat.div_le_self _ _
    have e : wrap (1 + ((eq.nY / eq.nThreads : Nat) : Int))
        = 1 + (eq.nThreads - (eq.nThreads - 1)) * (eq.nY / eq.nThreads) := by
      have : eq.nThreads - (eq.nThreads - 1) = 1 := by omega
      rw [this, Nat.one_mul]
      have h2 : eq.nY / eq.nThreads * 2 ≤ eq.nY := by
        have h3 : eq.nY / eq.nThreads * 2 ≤ eq.nY / eq.nThreads * eq.nThreads :=
          Nat.mul_le_mul_left _ (by omega)
        have := Nat.div_mul_le_self eq.nY eq.nThreads
        omega
      obtain ⟨L, hL⟩ : ∃ L, eq.nY / eq.nThreads = L := ⟨_, rfl⟩
      rw [hL] at h2 ⊢
      unfold wrap; omega
    rw [e, mem_initThreads eq hR (eq.nThreads - 1) _ (by omega) rfl w]
    constructor
    · rintro (⟨r, h2, h3, h4⟩ | h)
      · exact ⟨r, h3, h4⟩
      · refine ⟨0, by omega, ?_⟩
        rw [h, workerOf, if_neg (by omega)]
        simp
    · rintro ⟨r, hr, h⟩
      by_cases h0 : r = 0
      · right
        rw [h, h0, workerOf, if_neg (by omega)]
        simp
      · left
        exact ⟨r, by omega, hr, h⟩

theorem bandOf_eq (eq : JacobiEquasion) (hW : 1 ≤ eq.nThreads)
    (hR : eq.nY < 18446744073709551616) (r : Nat) :
    bandOf eq r = if r < eq.nThreads then some ((workerOf eq r).jStart, (workerOf eq r).jLength)
                  else none := by
  unfold bandOf
  by_cases hr : r < eq.nThreads
  · rw [if_pos hr, find?_eq_some_of_unique _ (workerOf eq r) _
      ((mem_solveWorkers eq hW hR _).mpr ⟨r, hr, rfl⟩) (by simp [workerOf])]
    · rfl
    · intro b hb hbr
      obtain ⟨r', _, hb'⟩ := (mem_solveWorkers eq hW hR b).mp hb
      subst hb'
      have : r' = r := by simpa [workerOf] using hbr
      rw [this]
  · rw [if_neg hr]
    have : (solveWorkers eq).find? (fun w => w.rank == r) = none := by
      rw [List.find?_eq_none]
      intro w hw
      obtain ⟨r', hr', hw'⟩ := (mem_solveWorkers eq hW hR w).mp hw
      subst hw'
      simp [workerOf]
      omega
    rw [this]; rfl

/-- Rows covered by the band of rank `r` start at `1 + r * L` and, for the last rank, end at
`nY + 1`. -/
theorem workerOf_rows (eq : JacobiEquasion) (r j : Nat) :
    ((workerOf eq r).jStart ≤ j ∧ j < (workerOf eq r).jStart + (workerOf eq r).jLength)
      ↔ (1 + r * (eq.nY / eq.nThreads) ≤ j
          ∧ j < (if r + 1 = eq.nThreads then eq.nY + 1 else 1 + (r + 1) * (eq.nY / eq.nThreads))) := by
  have hdm := Nat.div_add_mod eq.nY eq.nThreads
  unfold workerOf
  simp only []
  obtain ⟨L, hL⟩ : ∃ L, eq.nY / eq.nThreads = L := ⟨_, rfl⟩
  obtain ⟨M, hM⟩ : ∃ M, eq.nY % eq.nThreads = M := ⟨_, rfl⟩
  rw [hL, hM] at hdm
  simp only [hL, hM]
  have h1 : (r + 1) * L = r * L + L := by ring
  by_cases hlast : r + 1 = eq.nThreads
  · have h2 : eq.nThreads * L = r * L + L := by rw [← hlast]; ring
    rw [if_pos hlast, if_pos hlast]
    omega
  · rw [if_neg hlast, if_neg hlast]
    omega

/-- Every interior row lies in the band of some worker, and bands hold interior rows only. -/
theorem rows_covered (eq : JacobiEquasion) (hW : 1 ≤ eq.nThreads)
    (hR : eq.nY < 18446744073709551616) (j : Nat) :
    (∃ w ∈ solveWorkers eq, w.jStart ≤ j ∧ j < w.jStart + w.jLength) ↔ (1 ≤ j ∧ j ≤ eq.nY) := by
  have hdm := Nat.div_add_mod eq.nY eq.nThreads
  constructor
  · rintro ⟨w, hw, hj⟩
    obtain ⟨r, hr, hw'⟩ := (mem_solveWorkers eq hW hR w).mp hw
    subst hw'
    rw [workerOf_rows eq r] at hj
    obtain ⟨hj1, hj2⟩ := hj
    have hle : (r + 1) * (eq.nY / eq.nThreads) ≤ eq.nThreads * (eq.nY / eq.nThreads) :=
      Nat.mul_le_mul_right _ (by omega)
    split_ifs at hj2 <;> omega
  · rintro ⟨h1, h2⟩
    by_cases hlast : 1 + (eq.nThreads - 1) * (eq.nY / eq.nThreads) ≤ j
    · refine ⟨workerOf eq (eq.nThreads - 1), (mem_solveWorkers eq hW hR _).mpr ⟨_, by omega, rfl⟩, ?_⟩
      rw [workerOf_rows eq, if_pos (by omega)]
      omega
    · have hL : 0 < eq.nY / eq.nThreads := by
        rcases Nat.eq_zero_or_pos (eq.nY / eq.nThreads) with h | h
        · rw [h] at hlast; omega
        · exact h
      have hq : (j - 1) / (eq.nY / eq.nThreads) < eq.nThreads - 1 := by
        rw [Nat.div_lt_iff_lt_mul hL]; omega
      have hdm2 := Nat.div_add_mod (j - 1) (eq.nY / eq.nThreads)
      have hml := Nat.mod_lt (j - 1) hL
      refine ⟨workerOf eq ((j - 1) / (eq.nY / eq.nThreads)),
        (mem_solveWorkers eq hW hR _).mpr ⟨_, by omega, rfl⟩, ?_⟩
      rw [workerOf_rows eq, if_neg (by omega)]
      have h3 : ((j - 1) / (eq.nY / eq.nThreads) + 1) * (eq.nY / eq.nThreads)
          = (j - 1) / (eq.nY / eq.nThreads) * (eq.nY / eq.nThreads) + eq.nY / eq.nThreads := by ring
      have h4 : eq.nY / eq.nThreads * ((j - 1) / (eq.nY / eq.nThreads))
          = (j - 1) / (eq.nY / eq.nThreads) * (eq.nY / eq.nThreads) := Nat.mul_comm _ _
      omega

/-- The bands of two different ranks share no row. -/
theorem bands_disjoint (eq : JacobiEquasion) (r r' j : Nat)
    (hr : r < eq.nThreads) (hr' : r' < eq.nThreads)
    (h : (workerOf eq r).jStart ≤ j ∧ j < (workerOf eq r).jStart + (workerOf eq r).jLength)
    (h' : (workerOf eq r').jStart ≤ j ∧ j < (workerOf eq r').jStart + (workerOf eq r').jLength) :
    r = r' := by
  rw [workerOf_rows eq r] at h
  rw [workerOf_rows eq r'] at h'
  rcases Nat.lt_trichotomy r r' with hlt | heq | hgt
  · have : (r + 1) * (eq.nY / eq.nThreads) ≤ r' * (eq.nY / eq.nThreads) :=
      Nat.mul_le_mul_right _ (by omega)
    rw [if_neg (by omega)] at h
    omega
  · exact heq
  · have : (r' + 1) * (eq.nY / eq.nThreads) ≤ r * (eq.nY / eq.nThreads) :=
      Nat.mul_le_mul_right _ (by omega)
    rw [if_neg (by omega)] at h'
    omega

/-- Claim C3. For `1 ≤ W ≤ R` the bands `solve` and `initThreads` hand to the workers
`0 .. W-1` are: `(1 + r * ⌊R/W⌋, ⌊R/W⌋)` for the ranks `r < W-1` and
`(1 + (W-1) * ⌊R/W⌋, ⌊R/W⌋ + R mod W)` for rank `W-1`; there is no other worker; every band
is non-empty; each band starts where the previous one ends; a row lies in some band exactly
when it is one of the rows `1 .. R`, and it lies in the band of one rank only. -/
theorem C3_bands_partition (eq : JacobiEquasion) (hW : 1 ≤ eq.nThreads)
    (hWR : eq.nThreads ≤ eq.nY) (hR : eq.nY < 18446744073709551616) :
    (∀ r, r + 1 < eq.nThreads →
        bandOf eq r = some (1 + r * (eq.nY / eq.nThreads), eq.nY / eq.nThreads))
    ∧ bandOf eq (eq.nThreads - 1)
        = some (1 + (eq.nThreads - 1) * (eq.nY / eq.nThreads),
                eq.nY / eq.nThreads + eq.nY % eq.nThreads)
    ∧ (∀ r, eq.nThreads ≤ r → bandOf eq r = none)
    ∧ 1 ≤ eq.nY / eq.nThreads
    ∧ (∀ r b b', r + 1 < eq.nThreads → bandOf eq r = some b → bandOf eq (r + 1) = some b' →
        b'.1 = b.1 + b.2)
    ∧ (∀ j, (∃ r b, bandOf eq r = some b ∧ b.1 ≤ j ∧ j < b.1 + b.2) ↔ (1 ≤ j ∧ j ≤ eq.nY))
    ∧ (∀ j r r' b b', bandOf eq r = some b → bandOf eq r' = some b' →
        b.1 ≤ j → j < b.1 + b.2 → b'.1 ≤ j → j < b'.1 + b'.2 → r = r') := by
  have hband : ∀ r b, bandOf eq r = some b →
      r < eq.nThreads ∧ b = ((workerOf eq r).jStart, (workerOf eq r).jLength) := by
    intro r b hb
    rw [bandOf_eq eq hW hR] at hb
    by_cases hr : r < eq.nThreads
    · rw [if_pos hr] at hb
      exact ⟨hr, (Option.some.inj hb).symm⟩
    · rw [if_neg hr] at hb
      cases hb
  refine ⟨?_, ?_, ?_, ?_, ?_, ?_, ?_⟩
  · intro r hr
    rw [bandOf_eq eq hW hR, if_pos (by omega), workerOf]
    simp only []
    rw [if_neg (by omega)]
  · rw [bandOf_eq eq hW hR, if_pos (by omega), workerOf]
    simp only []
    rw [if_pos (by omega)]
  · intro r hr
    rw [bandOf_eq eq hW hR, if_neg (by omega)]
  · exact (Nat.one_le_div_iff (by omega)).mpr hWR
  · intro r b b' hr hb hb'
    obtain ⟨_, rfl⟩ := hband r b hb
    obtain ⟨_, rfl⟩ := hband (r + 1) b' hb'
    simp only [workerOf]
    rw [if_neg (by omega)]
    ring
  · intro j
    rw [← rows_covered eq hW hR j]
    constructor
    · rintro ⟨r, b, hb, h1, h2⟩
      obtain ⟨hr, rfl⟩ := hband r b hb
      exact ⟨workerOf eq r, (mem_solveWorkers eq hW hR _).mpr ⟨r, hr, rfl⟩, h1, h2⟩
    · rintro ⟨w, hw, h1, h2⟩
      obtain ⟨r, hr, rfl⟩ := (mem_solveWorkers eq hW hR w).mp hw
      exact ⟨r, _, by rw [bandOf_eq eq hW hR, if_pos hr], h1, h2⟩
  · intro j r r' b b' hb hb' h1 h2 h3 h4
    obtain ⟨hr, rfl⟩ := hband r b hb
    obtain ⟨hr', rfl⟩ := hband r' b' hb'
    exact bands_disjoint eq r r' j hr hr' ⟨h1, h2⟩ ⟨h3, h4⟩

/-! ## Closed forms of `countLine`, of a band and of a sweep -/

theorem lineBound_le (eq : JacobiEquasion) (h : eq.nX + 1 < 18446744073709551616) :
    lineBound eq ≤ eq.nX + 1 := by
  rw [lineBound_eq eq h]; omega

theorem lineWrites_iff (eq : JacobiEquasion) (c : Nat) :
    lineWrites eq c = true ↔
      ((lineBound eq ≤ c ∧ c < eq.nX + 1) ∨ (1 ≤ c ∧ c < vecEnd 1 (lineBound eq))) := by
  simp [lineWrites]

/-- Columns written by `countLine` are among `0 .. nX + 1`. -/
theorem lineWrites_le (eq : JacobiEquasion) (h : eq.nX + 1 < 18446744073709551616) (c : Nat)
    (hc : lineWrites eq c = true) : c ≤ eq.nX + 1 := by
  rw [lineWrites_iff, lineBound_eq eq h] at hc
  unfold vecEnd at hc
  split_ifs at hc <;> omega

/-- Every interior column is written by `countLine`. -/
theorem lineWrites_interior (eq : JacobiEquasion) (h : eq.nX + 1 < 18446744073709551616)
    (c : Nat) (h1 : 1 ≤ c) (h2 : c ≤ eq.nX) : lineWrites eq c = true := by
  rw [lineWrites_iff, lineBound_eq eq h]
  unfold vecEnd
  split_ifs <;> omega

/-- Closed form of `countLine` for a row at offset `jArr`. -/
theorem countLine_apply (eq : JacobiEquasion) (Phi PhiN : Buf) (jArr p : Nat)
    (hj : eq.nXArr ≤ jArr) (h8 : eq.nX + 9 ≤ 18446744073709551616)
    (hb : eq.nX + 2 + jArr + eq.nXArr ≤ 18446744073709551616) :
    countLine eq Phi PhiN jArr p
      = if jArr ≤ p ∧ lineWrites eq (p - jArr) = true then lineValue eq Phi jArr (p - jArr)
        else PhiN p := by
  have hm := lineBound_le eq (by omega)
  have en : wrap ((eq.nX : Int) + 1) = eq.nX + 1 := by unfold wrap; omega
  rw [countLine, en, countLineTail_apply eq Phi jArr (by omega) _ _ _ p (by omega),
    countLineVec_apply eq Phi jArr hj (by omega) (by omega) _ _ _ p (le_refl _) (by omega)]
  unfold lineValue
  by_cases h1 : lineBound eq + jArr ≤ p ∧ p < eq.nX + 1 + jArr
  · rw [if_pos h1, if_pos ⟨by omega, (lineWrites_iff _ _).mpr (Or.inl (by omega))⟩,
      if_pos (by omega)]
  · rw [if_neg h1]
    by_cases h2 : 1 + jArr ≤ p ∧ p < vecEnd 1 (lineBound eq) + jArr
    · rw [if_pos h2, if_pos ⟨by omega, (lineWrites_iff _ _).mpr (Or.inr (by omega))⟩,
        if_neg (by omega)]
      congr 1
      omega
    · rw [if_neg h2, if_neg]
      rintro ⟨h3, h4⟩
      rw [lineWrites_iff] at h4
      omega

theorem div_mod_row (n j p : Nat) (hn : 0 < n) :
    (p / n = j ∧ p % n = p - j * n) ↔ (j * n ≤ p ∧ p - j * n < n) := by
  have hdm := Nat.div_add_mod p n
  have hml := Nat.mod_lt p hn
  constructor
  · rintro ⟨h1, h2⟩
    subst h1
    have : n * (p / n) = p / n * n := Nat.mul_comm _ _
    omega
  · rintro ⟨h1, h2⟩
    have hd : p / n = j := Nat.div_eq_of_lt_le h1 (by rw [Nat.add_mul]; omega)
    subst hd
    have : n * (p / n) = p / n * n := Nat.mul_comm _ _
    omega

/-- Closed form of the row loop of a band. -/
theorem countRows_apply (eq : JacobiEquasion) (Phi : Buf) (jEnd : Nat)
    (hn : eq.nX + 2 ≤ eq.nXArr)
    (hfit : jEnd * eq.nXArr + eq.nXArr ≤ 18446744073709551616) :
    ∀ (fuel j : Nat) (PhiN : Buf), 1 ≤ j → jEnd ≤ j + fuel →
      countRows eq Phi jEnd fuel j PhiN = sweepFn eq Phi PhiN j jEnd := by
  intro fuel
  induction fuel with
  | zero =>
    intro j PhiN _ hf
    funext p
    rw [countRows, sweepFn, if_neg (by omega)]
  | succ fuel ih =>
    intro j PhiN hj hf
    funext p
    rw [countRows]
    by_cases hlt : j < jEnd
    · have hmul : j * eq.nXArr + eq.nXArr ≤ jEnd * eq.nXArr := by
        have : (j + 1) * eq.nXArr ≤ jEnd * eq.nXArr := Nat.mul_le_mul_right _ hlt
        rw [Nat.add_mul] at this; omega
      have hge : eq.nXArr ≤ j * eq.nXArr := Nat.le_mul_of_pos_left _ hj
      have hjE : jEnd ≤ jEnd * eq.nXArr := Nat.le_mul_of_pos_right _ (by omega)
      have e1 : wrap ((j : Int) + 1) = j + 1 := by unfold wrap; omega
      have e2 : wrap ((j : Int) * eq.nXArr) = j * eq.nXArr := by
        have : ((j : Int) * eq.nXArr) = ((j * eq.nXArr : Nat) : Int) := by push_cast; rfl
        rw [this, wrap_natCast _ (by omega)]
      rw [if_pos hlt, e1, e2, ih (j + 1) _ (by omega) (by omega)]
      unfold sweepFn
      have hrow := div_mod_row eq.nXArr j p (by omega)
      by_cases hr : p / eq.nXArr = j
      · have hmod : p % eq.nXArr = p - j * eq.nXArr := by
          have hdm := Nat.div_add_mod p eq.nXArr
          have : eq.nXArr * (p / eq.nXArr) = p / eq.nXArr * eq.nXArr := Nat.mul_comm _ _
          rw [hr] at this hdm
          omega
        have hjp := (hrow.mp ⟨hr, hmod⟩).1
        rw [if_neg (by omega), countLine_apply eq Phi PhiN _ p hge (by omega) (by omega),
          hr, hmod]
        by_cases hw : lineWrites eq (p - j * eq.nXArr) = true
        · rw [if_pos ⟨hjp, hw⟩, if_pos ⟨le_refl _, hlt, hw⟩]
        · rw [if_neg (fun h => hw h.2), if_neg (fun h => hw h.2.2)]
      · have hnw : ¬ (j * eq.nXArr ≤ p ∧ lineWrites eq (p - j * eq.nXArr) = true) := by
          rintro ⟨h1, h2⟩
          have := lineWrites_le eq (by omega) _ h2
          exact hr (hrow.mpr ⟨h1, by omega⟩).1
        rw [countLine_apply eq Phi PhiN _ p hge (by omega) (by omega), if_neg hnw]
        by_cases hc : j + 1 ≤ p / eq.nXArr ∧ p / eq.nXArr < jEnd
            ∧ lineWrites eq (p % eq.nXArr) = true
        · rw [if_pos hc, if_pos ⟨by omega, hc.2.1, hc.2.2⟩]
        · rw [if_neg hc, if_neg]
          rintro ⟨h1, h2, h3⟩
          exact hc ⟨by omega, h2, h3⟩
    · rw [if_neg hlt, sweepFn, if_neg (by omega)]

/-- Closed form of one pass of a worker over its band. -/
theorem countBand_eq (eq : JacobiEquasion) (Phi PhiN : Buf) (jStart jLength : Nat)
    (hn : eq.nX + 2 ≤ eq.nXArr) (hs : 1 ≤ jStart)
    (hfit : (jStart + jLength) * eq.nXArr + eq.nXArr ≤ 18446744073709551616) :
    countBand eq Phi PhiN jStart jLength = sweepFn eq Phi PhiN jStart (jStart + jLength) := by
  have hjE : jStart + jLength ≤ (jStart + jLength) * eq.nXArr :=
    Nat.le_mul_of_pos_right _ (by omega)
  have e : wrap ((jStart : Int) + jLength) = jStart + jLength := by unfold wrap; omega
  rw [countBand, e, countRows_apply eq Phi _ hn hfit _ _ _ hs (by omega)]

/-! ## C1: one sweep computes the nine-point update on every interior cell -/

theorem mainNXArr_bounds (nX : Nat) (h : nX + 9 < 4294967296) :
    nX + 2 ≤ mainNXArr nX ∧ mainNXArr nX ≤ nX + 9 ∧ mainNXArr nX % 8 = 0 := by
  rw [mainNXArr_eq nX h]; omega

theorem cell_div_mod (n i j : Nat) (hi : i < n) :
    cell n i j / n = j ∧ cell n i j % n = i := by
  unfold cell
  have h1 : (i + j * n) / n = j :=
    Nat.div_eq_of_lt_le (by omega) (by rw [Nat.add_mul]; omega)
  refine ⟨h1, ?_⟩
  have hdm := Nat.div_add_mod (i + j * n) n
  rw [h1, Nat.mul_comm n j] at hdm
  omega

theorem stencil_eq_spec (eq : JacobiEquasion) (cur : Buf) (i j : Nat)
    (hi : 1 ≤ i) (hj : 1 ≤ j) :
    stencil eq cur (i + j * eq.nXArr)
      = stencilSpec eq.A eq.B eq.C eq.D cur eq.nXArr i j := by
  have h1 : (j - 1) * eq.nXArr = j * eq.nXArr - eq.nXArr := by
    rw [Nat.sub_mul, Nat.one_mul]
  have h2 : (j + 1) * eq.nXArr = j * eq.nXArr + eq.nXArr := by
    rw [Nat.add_mul, Nat.one_mul]
  have h3 : eq.nXArr ≤ j * eq.nXArr := Nat.le_mul_of_pos_left _ hj
  unfold stencil stencilSpec cell
  rw [h1, h2]
  have e1 : i + j * eq.nXArr - eq.nXArr = i + (j * eq.nXArr - eq.nXArr) := by omega
  have e2 : i + j * eq.nXArr + eq.nXArr = i + (j * eq.nXArr + eq.nXArr) := by omega
  have e3 : i + j * eq.nXArr - 1 = i - 1 + j * eq.nXArr := by omega
  have e4 : i + j * eq.nXArr - 1 - eq.nXArr = i - 1 + (j * eq.nXArr - eq.nXArr) := by omega
  have e5 : i + j * eq.nXArr + 1 - eq.nXArr = i + 1 + (j * eq.nXArr - eq.nXArr) := by omega
  have e6 : i + j * eq.nXArr - 1 + eq.nXArr = i - 1 + (j * eq.nXArr + eq.nXArr) := by omega
  have e7 : i + j * eq.nXArr + 1 + eq.nXArr = i + 1 + (j * eq.nXArr + eq.nXArr) := by omega
  have e8 : i + j * eq.nXArr + 1 = i + 1 + j * eq.nXArr := by omega
  rw [e4, e5, e6, e7, e1, e2, e3, e8]

/-- The value a sweep over the rows `lo ≤ j < hi` leaves in an interior cell of one of these
rows is the nine-point update of the spec. -/
theorem sweepFn_interior (eq : JacobiEquasion) (cur next : Buf) (lo hi i j : Nat)
    (hn : eq.nX + 2 ≤ eq.nXArr) (hlo : 1 ≤ lo)
    (hfit : hi * eq.nXArr + eq.nXArr ≤ 18446744073709551616)
    (hi1 : 1 ≤ i) (hi2 : i ≤ eq.nX) (hj1 : lo ≤ j) (hj2 : j < hi) :
    sweepFn eq cur next lo hi (cell eq.nXArr i j)
      = stencilSpec eq.A eq.B eq.C eq.D cur eq.nXArr i j := by
  obtain ⟨hd, hm⟩ := cell_div_mod eq.nXArr i j (by omega)
  have hmul : j * eq.nXArr + eq.nXArr ≤ hi * eq.nXArr := by
    have : (j + 1) * eq.nXArr ≤ hi * eq.nXArr := Nat.mul_le_mul_right _ hj2
    rw [Nat.add_mul] at this; omega
  have hge : eq.nXArr ≤ j * eq.nXArr := Nat.le_mul_of_pos_left _ (by omega)
  rw [sweepFn, hd, hm, if_pos ⟨hj1, hj2, lineWrites_interior eq (by omega) i hi1 hi2⟩]
  unfold lineValue
  split_ifs
  · rw [scalarResult_eq eq cur _ i hi1 hge (by omega), stencil_eq_spec eq cur i j hi1 (by omega)]
  · rw [stencil_eq_spec eq cur i j hi1 (by omega)]

/-- Claim C1. For `nX ≥ 1`, `nY ≥ 1` (both follow from the existence of an interior cell) and
the row stride `main` computes, after one sweep in
which the rows `1 .. nY` are each processed by `countLine(cur, next, j*nXArr)`, every interior
cell (column `i` in `1 .. nX`, row `j` in `1 .. nY`) of the output buffer holds
`A·(cur[i,j-1] + cur[i,j+1]) + B·(cur[i-1,j] + cur[i+1,j])
 + C·(cur[i-1,j-1] + cur[i+1,j-1] + cur[i-1,j+1] + cur[i+1,j+1]) + D[i,j]`, with `cur` the
input buffer as it was before the sweep, whether the cell is computed by a vector group or by
the scalar tail.  The sizes are those for which `main` computes the stride and the buffer
size without overflow: `nX + 9 < 2^32` and `nXArr * (nY + 2) < 2^64`. -/
theorem C1_sweep_stencil (eq : JacobiEquasion) (cur next : Buf) (i j : Nat)
    (hstride : eq.nXArr = mainNXArr eq.nX) (hX : eq.nX + 9 < 4294967296)
    (hfit : eq.nXArr * (eq.nY + 2) < 18446744073709551616)
    (hi : 1 ≤ i ∧ i ≤ eq.nX) (hj : 1 ≤ j ∧ j ≤ eq.nY) :
    countBand eq cur next 1 eq.nY (cell eq.nXArr i j)
      = stencilSpec eq.A eq.B eq.C eq.D cur eq.nXArr i j := by
  have hn : eq.nX + 2 ≤ eq.nXArr := by rw [hstride]; exact (mainNXArr_bounds _ hX).1
  have hf : (1 + eq.nY) * eq.nXArr + eq.nXArr ≤ 18446744073709551616 := by
    have : (1 + eq.nY) * eq.nXArr + eq.nXArr = eq.nXArr * (eq.nY + 2) := by ring
    omega
  rw [countBand_eq eq cur next 1 eq.nY hn (le_refl _) hf]
  exact sweepFn_interior eq cur next 1 (1 + eq.nY) i j hn (le_refl _) hf hi.1 hi.2 hj.1 (by omega)

/-- C1 at `nX = 9`, `nY = 2`, cell `(8, 2)`: a column written by the vector group and again
by the scalar tail. -/
theorem C1_sweep_stencil_witness :
    countBand (mainEq 1 9 2 1 (1/5) (1/5) (1/20) (fun p => (p : ℚ))) (fun p => (p : ℚ) * p)
        (fun _ => 0) 1 2 (cell (mainNXArr 9) 8 2)
      = stencilSpec (1/5) (1/5) (1/20) (fun p => (p : ℚ)) (fun p => (p : ℚ) * p)
          (mainNXArr 9) 8 2 :=
  C1_sweep_stencil (mainEq 1 9 2 1 (1/5) (1/5) (1/20) (fun p => (p : ℚ)))
    (fun p => (p : ℚ) * p) (fun _ => 0) 8 2 rfl (by decide) (by decide) (by decide)
    (by decide)

/-! ## The buffer roles of a sweep -/

theorem initThreads_ranks (eq : JacobiEquasion) :
    ∀ (N jStart jLength : Nat), N < eq.nThreads →
      (initThreads eq N jStart jLength).map (fun w => w.rank)
        = List.range' (eq.nThreads - N) N := by
  intro N
  induction N using Nat.strong_induction_on with
  | _ N ih =>
    intro jStart jLength hN
    match N, ih with
    | 0, _ => simp [initThreads]
    | 1, _ => simp [initThreads]
    | N + 2, ih =>
      have hsub : eq.nThreads - (N + 1) = eq.nThreads - (N + 2) + 1 := by omega
      simp only [initThreads, List.map_cons]
      rw [ih (N + 1) (by omega) _ _ (by omega), hsub]
      rfl

/-- The ranks of the workers of `solve` are pairwise different. -/
theorem solveWorkers_ranks_nodup (eq : JacobiEquasion) (hW : 1 ≤ eq.nThreads) :
    ((solveWorkers eq).map (fun w => w.rank)).Nodup := by
  unfold solveWorkers
  rw [List.map_append, initThreads_ranks eq _ _ _ (by omega)]
  have h1 : eq.nThreads - (eq.nThreads - 1) = 1 := by omega
  rw [h1, List.nodup_append]
  refine ⟨List.nodup_range' _ _, by simp, ?_⟩
  intro a ha hb
  simp only [List.map_cons, List.map_nil, List.mem_singleton] at hb
  rw [List.mem_range'_1] at ha
  omega

/-- A pass of workers with pairwise different ranks that all hold the same local pointer
roles is one sweep with these roles, and exchanges the roles of each of them. -/
theorem foldl_workerPhase (eq : JacobiEquasion) (noDelta : Bool) (b : Bool) :
    ∀ (ws : List Worker) (s : State), (ws.map (fun w => w.rank)).Nodup →
      (∀ w ∈ ws, s.swapped w.rank = b) →
      (ws.foldl (workerPhase eq noDelta) s).mem = sweepStep eq b s.mem ws
      ∧ (∀ r, (ws.foldl (workerPhase eq noDelta) s).swapped r
          = if r ∈ ws.map (fun w => w.rank) then !b else s.swapped r) := by
  intro ws
  induction ws with
  | nil =>
    intro s _ _
    refine ⟨?_, fun r => by simp⟩
    cases b <;> simp [sweepStep, sweepWorkers]
  | cons w ws ih =>
    intro s hnd hb
    rw [List.map_cons, List.nodup_cons] at hnd
    have hw : s.swapped w.rank = b := hb w (List.mem_cons_self _ _)
    have hrest : ∀ w' ∈ ws, (workerPhase eq noDelta s w).swapped w'.rank = b := by
      intro w' hw'
      have hne : w'.rank ≠ w.rank := by
        intro h
        exact hnd.1 (h ▸ List.mem_map_of_mem (fun w => w.rank) hw')
      simp only [workerPhase]
      rw [Function.update_noteq hne]
      exact hb w' (List.mem_cons_of_mem _ hw')
    obtain ⟨ih1, ih2⟩ := ih (workerPhase eq noDelta s w) hnd.2 hrest
    rw [List.foldl_cons]
    refine ⟨?_, ?_⟩
    · rw [ih1]
      simp only [workerPhase, hw]
      cases b <;> simp [sweepStep, sweepWorkers]
    · intro r
      rw [ih2 r, List.map_cons]
      by_cases hr : r ∈ ws.map (fun w => w.rank)
      · rw [if_pos hr, if_pos (List.mem_cons_of_mem _ hr)]
      · rw [if_neg hr]
        simp only [workerPhase]
        by_cases hrw : r = w.rank
        · rw [hrw, Function.update_same, if_pos (List.mem_cons_self _ _), hw]
        · rw [Function.update_noteq hrw, if_neg]
          rw [List.mem_cons]
          rintro (h | h)
          · exact hrw h
          · exact hr h

theorem iteration_mem (eq : JacobiEquasion) (noDelta : Bool) (order : List Worker) (s : State) :
    (iteration eq noDelta order s).mem = (order.foldl (workerPhase eq noDelta) s).mem
    ∧ (iteration eq noDelta order s).swapped = (order.foldl (workerPhase eq noDelta) s).swapped := by
  unfold iteration
  cases noDelta <;> simp

/-- Under a fair schedule, before iteration `k` every worker holds the roles fixed by the
parity of `k`, and iteration `k` is one sweep with these roles. -/
theorem run_roles (eq : JacobiEquasion) (noDelta : Bool) (sched : Nat → List Worker)
    (hW : 1 ≤ eq.nThreads) (hfair : FairSchedule eq sched) (Phi PhiN : Buf) (deltas0 : Nat → ℚ) :
    ∀ k, (∀ w ∈ solveWorkers eq,
            (run eq noDelta sched k (initState Phi PhiN deltas0)).swapped w.rank
              = decide (k % 2 = 1))
      ∧ (run eq noDelta sched (k + 1) (initState Phi PhiN deltas0)).mem
          = sweepStep eq (decide (k % 2 = 1))
              (run eq noDelta sched k (initState Phi PhiN deltas0)).mem (sched k) := by
  have hnd : ∀ k, ((sched k).map (fun w => w.rank)).Nodup := fun k =>
    ((hfair k).map _).nodup_iff.mpr (solveWorkers_ranks_nodup eq hW)
  have hflag : ∀ k, ∀ w ∈ solveWorkers eq,
      (run eq noDelta sched k (initState Phi PhiN deltas0)).swapped w.rank
        = decide (k % 2 = 1) := by
    intro k
    induction k with
    | zero => intro w _; simp [run, initState]
    | succ k ih =>
      intro w hw
      have hall : ∀ w ∈ sched k,
          (run eq noDelta sched k (initState Phi PhiN deltas0)).swapped w.rank
            = decide (k % 2 = 1) := fun w hw => ih w ((hfair k).mem_iff.mp hw)
      have h2 := (foldl_workerPhase eq noDelta _ (sched k) _ (hnd k) hall).2 w.rank
      have hmem : w.rank ∈ (sched k).map (fun w => w.rank) :=
        List.mem_map_of_mem (fun w => w.rank) ((hfair k).mem_iff.mpr hw)
      rw [run, (iteration_mem eq noDelta _ _).2, h2, if_pos hmem]
      by_cases hk : k % 2 = 1
      · have : ¬ (k + 1) % 2 = 1 := by omega
        simp [hk, this]
      · have : (k + 1) % 2 = 1 := by omega
        simp [hk, this]
  intro k
  refine ⟨hflag k, ?_⟩
  have hall : ∀ w ∈ sched k,
      (run eq noDelta sched k (initState Phi PhiN deltas0)).swapped w.rank
        = decide (k % 2 = 1) := fun w hw => hflag k w ((hfair k).mem_iff.mp hw)
  rw [run, (iteration_mem eq noDelta _ _).1,
    (foldl_workerPhase eq noDelta _ (sched k) _ (hnd k) hall).1]

/-- Claim C7. The parity of the iteration index alone fixes the buffer roles, for every worker
alike: under any fair schedule, before sweep `k` (0-based) every worker holds the pointers
`(PhiGlobal, PhiNGlobal)` when `k` is even and `(PhiNGlobal, PhiGlobal)` when `k` is odd;
an even sweep leaves `PhiGlobal` as it is and writes `PhiNGlobal` from it, an odd sweep leaves
`PhiNGlobal` as it is and writes `PhiGlobal` from it.  Hence after `solve` with `nT ≥ 1` the
output of the last sweep is in `PhiNGlobal` when `nT` is odd and in `PhiGlobal` when `nT` is
even, the other buffer being as the sweep before left it. -/
theorem C7_roles_by_parity (eq : JacobiEquasion) (noDelta : Bool) (sched : Nat → List Worker)
    (Phi PhiN : Buf) (deltas0 : Nat → ℚ)
    (hW : 1 ≤ eq.nThreads) (hfair : FairSchedule eq sched) :
    (∀ k, ∀ w ∈ solveWorkers eq,
        (run eq noDelta sched k (initState Phi PhiN deltas0)).swapped w.rank
          = decide (k % 2 = 1))
    ∧ (∀ k, k % 2 = 0 →
        (run eq noDelta sched (k + 1) (initState Phi PhiN deltas0)).mem.PhiGlobal
          = (run eq noDelta sched k (initState Phi PhiN deltas0)).mem.PhiGlobal
        ∧ (run eq noDelta sched (k + 1) (initState Phi PhiN deltas0)).mem.PhiNGlobal
          = sweepWorkers eq (run eq noDelta sched k (initState Phi PhiN deltas0)).mem.PhiGlobal
              (run eq noDelta sched k (initState Phi PhiN deltas0)).mem.PhiNGlobal (sched k))
    ∧ (∀ k, k % 2 = 1 →
        (run eq noDelta sched (k + 1) (initState Phi PhiN deltas0)).mem.PhiNGlobal
          = (run eq noDelta sched k (initState Phi PhiN deltas0)).mem.PhiNGlobal
        ∧ (run eq noDelta sched (k + 1) (initState Phi PhiN deltas0)).mem.PhiGlobal
          = sweepWorkers eq (run eq noDelta sched k (initState Phi PhiN deltas0)).mem.PhiNGlobal
              (run eq noDelta sched k (initState Phi PhiN deltas0)).mem.PhiGlobal (sched k))
    ∧ (1 ≤ eq.nT → eq.nT % 2 = 1 →
        (solve eq noDelta sched (initState Phi PhiN deltas0)).mem.PhiNGlobal
          = sweepWorkers eq
              (run eq noDelta sched (eq.nT - 1) (initState Phi PhiN deltas0)).mem.PhiGlobal
              (run eq noDelta sched (eq.nT - 1) (initState Phi PhiN deltas0)).mem.PhiNGlobal
              (sched (eq.nT - 1)))
    ∧ (1 ≤ eq.nT → eq.nT % 2 = 0 →
        (solve eq noDelta sched (initState Phi PhiN deltas0)).mem.PhiGlobal
          = sweepWorkers eq
              (run eq noDelta sched (eq.nT - 1) (initState Phi PhiN deltas0)).mem.PhiNGlobal
              (run eq noDelta sched (eq.nT - 1) (initState Phi PhiN deltas0)).mem.PhiGlobal
              (sched (eq.nT - 1))) := by
  have hr := run_roles eq noDelta sched hW hfair Phi PhiN deltas0
  have heven : ∀ k, k % 2 = 0 →
      (run eq noDelta sched (k + 1) (initState Phi PhiN deltas0)).mem.PhiGlobal
        = (run eq noDelta sched k (initState Phi PhiN deltas0)).mem.PhiGlobal
      ∧ (run eq noDelta sched (k + 1) (initState Phi PhiN deltas0)).mem.PhiNGlobal
        = sweepWorkers eq (run eq noDelta sched k (initState Phi PhiN deltas0)).mem.PhiGlobal
            (run eq noDelta sched k (initState Phi PhiN deltas0)).mem.PhiNGlobal (sched k) := by
    intro k hk
    have hd : decide (k % 2 = 1) = false := by simp; omega
    rw [(hr k).2, hd]
    simp [sweepStep]
  have hodd : ∀ k, k % 2 = 1 →
      (run eq noDelta sched (k + 1) (initState Phi PhiN deltas0)).mem.PhiNGlobal
        = (run eq noDelta sched k (initState Phi PhiN deltas0)).mem.PhiNGlobal
      ∧ (run eq noDelta sched (k + 1) (initState Phi PhiN deltas0)).mem.PhiGlobal
        = sweepWorkers eq (run eq noDelta sched k (initState Phi PhiN deltas0)).mem.PhiNGlobal
            (run eq noDelta sched k (initState Phi PhiN deltas0)).mem.PhiGlobal (sched k) := by
    intro k hk
    have hd : decide (k % 2 = 1) = true := by simp; omega
    rw [(hr k).2, hd]
    simp [sweepStep]
  refine ⟨fun k => (hr k).1, heven, hodd, ?_, ?_⟩
  · intro h1 h2
    have e : eq.nT = (eq.nT - 1) + 1 := by omega
    unfold solve
    rw [e]
    exact (heven (eq.nT - 1) (by omega)).2
  · intro h1 h2
    have e : eq.nT = (eq.nT - 1) + 1 := by omega
    unfold solve
    rw [e]
    exact (hodd (eq.nT - 1) (by omega)).2

/-! ## C9: the diagnostic does not touch the field buffers -/

theorem workerPhase_noDelta (eq : JacobiEquasion) (s s' : State) (w : Worker)
    (hm : s.mem = s'.mem) (hs : s.swapped = s'.swapped) :
    (workerPhase eq true s w).mem = (workerPhase eq false s' w).mem
    ∧ (workerPhase eq true s w).swapped = (workerPhase eq false s' w).swapped := by
  simp only [workerPhase, hm, hs, and_self]

theorem foldl_workerPhase_noDelta (eq : JacobiEquasion) :
    ∀ (ws : List Worker) (s s' : State), s.mem = s'.mem → s.swapped = s'.swapped →
      (ws.foldl (workerPhase eq true) s).mem = (ws.foldl (workerPhase eq false) s').mem
      ∧ (ws.foldl (workerPhase eq true) s).swapped
          = (ws.foldl (workerPhase eq false) s').swapped := by
  intro ws
  induction ws with
  | nil => intro s s' hm hs; exact ⟨hm, hs⟩
  | cons w ws ih =>
    intro s s' hm hs
    rw [List.foldl_cons, List.foldl_cons]
    exact ih _ _ (workerPhase_noDelta eq s s' w hm hs).1 (workerPhase_noDelta eq s s' w hm hs).2

theorem run_noDelta (eq : JacobiEquasion) (sched : Nat → List Worker) (s : State) :
    ∀ n, (run eq true sched n s).mem = (run eq false sched n s).mem
      ∧ (run eq true sched n s).swapped = (run eq false sched n s).swapped := by
  intro n
  induction n with
  | zero => exact ⟨rfl, rfl⟩
  | succ n ih =>
    rw [run, run, (iteration_mem eq true _ _).1, (iteration_mem eq true _ _).2,
      (iteration_mem eq false _ _).1, (iteration_mem eq false _ _).2]
    exact foldl_workerPhase_noDelta eq _ _ _ ih.1 ih.2

/-- Claim C9. The convergence diagnostic is neutral: `delta` returns a value and writes no
buffer, the reduction only prints, so for every engine, every starting state and every
schedule both field buffers after `solve` are the same whether the diagnostic is compiled in
or disabled with `NO_DELTA`; with the diagnostic one value is printed per iteration, without
it nothing is printed. -/
theorem C9_diagnostic_neutral (eq : JacobiEquasion) (sched : Nat → List Worker) (s : State) :
    (solve eq true sched s).mem = (solve eq false sched s).mem
    ∧ (solve eq true sched s).out = s.out
    ∧ (solve eq false sched s).out.length = s.out.length + eq.nT := by
  refine ⟨(run_noDelta eq sched s eq.nT).1, ?_, ?_⟩
  · unfold solve
    induction eq.nT with
    | zero => rfl
    | succ n ih =>
      rw [run, iteration]
      simp only [if_true]
      have hout : ∀ (ws : List Worker) (t : State),
          (ws.foldl (workerPhase eq true) t).out = t.out := by
        intro ws
        induction ws with
        | nil => intro t; rfl
        | cons w ws ihw => intro t; rw [List.foldl_cons, ihw]; rfl
      rw [hout, ih]
  · unfold solve
    induction eq.nT with
    | zero => rfl
    | succ n ih =>
      rw [run, iteration]
      have hout : ∀ (ws : List Worker) (t : State),
          (ws.foldl (workerPhase eq false) t).out = t.out := by
        intro ws
        induction ws with
        | nil => intro t; rfl
        | cons w ws ihw => intro t; rw [List.foldl_cons, ihw]; rfl
      simp [hout, ih]
      omega

/-! ## A sweep of all workers, in any order -/

theorem covered_iff (ws : List Worker) (j : Nat) :
    covered ws j = true ↔ ∃ w ∈ ws, w.jStart ≤ j ∧ j < w.jStart + w.jLength := by
  simp [covered, List.any_eq_true]

/-- Every band of `solve` lies within the rows `1 .. nY`. -/
theorem solveWorkers_bounds (eq : JacobiEquasion) (hW : 1 ≤ eq.nThreads)
    (hR : eq.nY < 18446744073709551616) (w : Worker) (hw : w ∈ solveWorkers eq) :
    1 ≤ w.jStart ∧ w.jStart + w.jLength ≤ eq.nY + 1 := by
  obtain ⟨r, hr, rfl⟩ := (mem_solveWorkers eq hW hR w).mp hw
  have hdm := Nat.div_add_mod eq.nY eq.nThreads
  have hle : (r + 1) * (eq.nY / eq.nThreads) ≤ eq.nThreads * (eq.nY / eq.nThreads) :=
    Nat.mul_le_mul_right _ (by omega)
  have h1 : (r + 1) * (eq.nY / eq.nThreads)
      = r * (eq.nY / eq.nThreads) + eq.nY / eq.nThreads := by ring
  unfold workerOf
  simp only []
  refine ⟨by omega, ?_⟩
  split_ifs with hlast
  · have h2 : eq.nThreads * (eq.nY / eq.nThreads)
        = r * (eq.nY / eq.nThreads) + eq.nY / eq.nThreads := by rw [← hlast]; ring
    omega
  · omega

/-- Closed form of a sweep of the workers `ws` whose bands lie within the rows `1 .. nY`. -/
theorem sweepWorkers_eq (eq : JacobiEquasion) (Phi : Buf)
    (hn : eq.nX + 2 ≤ eq.nXArr)
    (hfit : (eq.nY + 1) * eq.nXArr + eq.nXArr ≤ 18446744073709551616) :
    ∀ (ws : List Worker) (PhiN : Buf),
      (∀ w ∈ ws, 1 ≤ w.jStart ∧ w.jStart + w.jLength ≤ eq.nY + 1) →
      sweepWorkers eq Phi PhiN ws = fun p =>
        if covered ws (p / eq.nXArr) = true ∧ lineWrites eq (p % eq.nXArr) = true then
          lineValue eq Phi (p / eq.nXArr * eq.nXArr) (p % eq.nXArr)
        else PhiN p := by
  intro ws
  induction ws with
  | nil =>
    intro PhiN _
    funext p
    simp [sweepWorkers, covered]
  | cons w ws ih =>
    intro PhiN hws
    have hw := hws w (List.mem_cons_self _ _)
    have hf : (w.jStart + w.jLength) * eq.nXArr + eq.nXArr ≤ 18446744073709551616 := by
      have : (w.jStart + w.jLength) * eq.nXArr ≤ (eq.nY + 1) * eq.nXArr :=
        Nat.mul_le_mul_right _ hw.2
      omega
    have ih' := ih (countBand eq Phi PhiN w.jStart w.jLength)
      (fun w' hw' => hws w' (List.mem_cons_of_mem _ hw'))
    unfold sweepWorkers at ih' ⊢
    rw [List.foldl_cons, ih', countBand_eq eq Phi PhiN _ _ hn hw.1 hf]
    funext p
    unfold sweepFn
    have hc : covered (w :: ws) (p / eq.nXArr) = true ↔
        ((w.jStart ≤ p / eq.nXArr ∧ p / eq.nXArr < w.jStart + w.jLength)
          ∨ covered ws (p / eq.nXArr) = true) := by
      simp [covered, List.any_cons]
    by_cases h1 : covered ws (p / eq.nXArr) = true ∧ lineWrites eq (p % eq.nXArr) = true
    · rw [if_pos h1, if_pos ⟨hc.mpr (Or.inr h1.1), h1.2⟩]
    · rw [if_neg h1]
      by_cases h2 : w.jStart ≤ p / eq.nXArr ∧ p / eq.nXArr < w.jStart + w.jLength
          ∧ lineWrites eq (p % eq.nXArr) = true
      · rw [if_pos h2, if_pos ⟨hc.mpr (Or.inl ⟨h2.1, h2.2.1⟩), h2.2.2⟩]
      · rw [if_neg h2, if_neg]
        rintro ⟨h3, h4⟩
        rcases hc.mp h3 with h5 | h5
        · exact h2 ⟨h5.1, h5.2, h4⟩
        · exact h1 ⟨h5, h4⟩

/-- A sweep in which every worker of `solve` runs once, in any order, is the sweep over the
rows `1 .. nY`. -/
theorem sweepWorkers_fair (eq : JacobiEquasion) (Phi PhiN : Buf) (ws : List Worker)
    (hW : 1 ≤ eq.nThreads) (hn : eq.nX + 2 ≤ eq.nXArr)
    (hfit : eq.nXArr * (eq.nY + 2) < 18446744073709551616)
    (hperm : ws.Perm (solveWorkers eq)) :
    sweepWorkers eq Phi PhiN ws = sweepFn eq Phi PhiN 1 (eq.nY + 1) := by
  have hf : (eq.nY + 1) * eq.nXArr + eq.nXArr ≤ 18446744073709551616 := by
    have : (eq.nY + 1) * eq.nXArr + eq.nXArr = eq.nXArr * (eq.nY + 2) := by ring
    omega
  have hR : eq.nY < 18446744073709551616 := by
    have : eq.nY + 1 ≤ (eq.nY + 1) * eq.nXArr := Nat.le_mul_of_pos_right _ (by omega)
    omega
  rw [sweepWorkers_eq eq Phi hn hf ws PhiN
    (fun w hw => solveWorkers_bounds eq hW hR w (hperm.mem_iff.mp hw))]
  funext p
  unfold sweepFn
  have hc : covered ws (p / eq.nXArr) = true ↔ (1 ≤ p / eq.nXArr ∧ p / eq.nXArr ≤ eq.nY) := by
    rw [covered_iff, ← rows_covered eq hW hR]
    constructor
    · rintro ⟨w, hw, h⟩; exact ⟨w, hperm.mem_iff.mp hw, h⟩
    · rintro ⟨w, hw, h⟩; exact ⟨w, hperm.mem_iff.mpr hw, h⟩
  by_cases h : covered ws (p / eq.nXArr) = true ∧ lineWrites eq (p % eq.nXArr) = true
  · rw [if_pos h, if_pos ⟨(hc.mp h.1).1, by have := (hc.mp h.1).2; omega, h.2⟩]
  · rw [if_neg h, if_neg]
    rintro ⟨h1, h2, h3⟩
    exact h ⟨hc.mpr ⟨h1, by omega⟩, h3⟩

/-- Under a fair schedule the field buffers after `k` iterations are those after `k` sweeps
over the rows `1 .. nY` with the roles fixed by parity. -/
theorem run_mem (eq : JacobiEquasion) (noDelta : Bool) (sched : Nat → List Worker)
    (Phi PhiN : Buf) (deltas0 : Nat → ℚ)
    (hW : 1 ≤ eq.nThreads) (hn : eq.nX + 2 ≤ eq.nXArr)
    (hfit : eq.nXArr * (eq.nY + 2) < 18446744073709551616)
    (hfair : FairSchedule eq sched) :
    ∀ k, (run eq noDelta sched k (initState Phi PhiN deltas0)).mem
      = sweepsMem eq k { PhiGlobal := Phi, PhiNGlobal := PhiN } := by
  intro k
  induction k with
  | zero => rfl
  | succ k ih =>
    rw [(run_roles eq noDelta sched hW hfair Phi PhiN deltas0 k).2, ih, sweepsMem, sweepStep]
    have hs : ∀ a b, sweepWorkers eq a b (sched k) = sweepFn eq a b 1 (eq.nY + 1) :=
      fun a b => sweepWorkers_fair eq a b (sched k) hW hn hfit (hfair k)
    by_cases hk : k % 2 = 1
    · simp only [hk, hs, decide_True, if_true]
    · simp only [hk, hs, decide_False, if_false]
      simp

theorem sweepsMem_withThreads (eq : JacobiEquasion) (W : Nat) (m : Mem) :
    ∀ k, sweepsMem (withThreads eq W) k m = sweepsMem eq k m := by
  intro k
  induction k with
  | zero => rfl
  | succ k ih =>
    rw [sweepsMem, sweepsMem, ih]
    rfl

/-- Claim C5. For a fixed problem (initial contents of both field buffers, source `D`,
coefficients, `nX`, `nY`, with the stride `main` computes) and a fixed iteration count, both
field buffers after `solve` are the same for every worker count `W ≥ 1` and for every order
in which the workers run between the barriers, with or without the diagnostic.  The sizes are
those for which `main` computes the stride and the buffer size without overflow. -/
theorem C5_worker_count_invariance (eq : JacobiEquasion) (W1 W2 : Nat) (noDelta1 noDelta2 : Bool)
    (sched1 sched2 : Nat → List Worker) (Phi PhiN : Buf) (deltas1 deltas2 : Nat → ℚ)
    (hstride : eq.nXArr = mainNXArr eq.nX) (hX : eq.nX + 9 < 4294967296)
    (hfit : eq.nXArr * (eq.nY + 2) < 18446744073709551616)
    (hW1 : 1 ≤ W1) (hW2 : 1 ≤ W2)
    (hfair1 : FairSchedule (withThreads eq W1) sched1)
    (hfair2 : FairSchedule (withThreads eq W2) sched2) :
    (solve (withThreads eq W1) noDelta1 sched1 (initState Phi PhiN deltas1)).mem
      = (solve (withThreads eq W2) noDelta2 sched2 (initState Phi PhiN deltas2)).mem := by
  have hn : eq.nX + 2 ≤ eq.nXArr := by rw [hstride]; exact (mainNXArr_bounds _ hX).1
  unfold solve
  rw [run_mem (withThreads eq W1) noDelta1 sched1 Phi PhiN deltas1 hW1 hn hfit hfair1,
    run_mem (withThreads eq W2) noDelta2 sched2 Phi PhiN deltas2 hW2 hn hfit hfair2,
    sweepsMem_withThreads, sweepsMem_withThreads]
  rfl

/-! ## C4: the boundary rows are never written -/

theorem sweepFn_outside (eq : JacobiEquasion) (Phi PhiN : Buf) (lo hi p : Nat)
    (h : p / eq.nXArr < lo ∨ hi ≤ p / eq.nXArr) :
    sweepFn eq Phi PhiN lo hi p = PhiN p := by
  rw [sweepFn, if_neg]
  rintro ⟨h1, h2, _⟩
  omega

theorem sweepsMem_outside (eq : JacobiEquasion) (m : Mem) (p : Nat)
    (h : p / eq.nXArr < 1 ∨ eq.nY + 1 ≤ p / eq.nXArr) :
    ∀ k, (sweepsMem eq k m).PhiGlobal p = m.PhiGlobal p
      ∧ (sweepsMem eq k m).PhiNGlobal p = m.PhiNGlobal p := by
  intro k
  induction k with
  | zero => exact ⟨rfl, rfl⟩
  | succ k ih =>
    rw [sweepsMem]
    split_ifs
    · exact ⟨by simp only []; rw [sweepFn_outside eq _ _ _ _ p h]; exact ih.1, ih.2⟩
    · exact ⟨ih.1, by simp only []; rw [sweepFn_outside eq _ _ _ _ p h]; exact ih.2⟩

/-- Claim C4. For any grid, any worker count `W ≥ 1`, any iteration count and any order of the
workers between the barriers: every cell that `countLine` changes when it
processes an interior row `j` lies inside row `j` (offsets `j*nXArr .. j*nXArr + nXArr - 1`),
the bands of all workers hold only rows of `1 .. nY`, and after `solve` every cell of the
boundary rows `0` and `nY + 1` of both field buffers holds its initial value.  The sizes are
those for which `main` computes the stride and the buffer size without overflow. -/
theorem C4_boundary_rows_kept (eq : JacobiEquasion) (noDelta : Bool)
    (sched : Nat → List Worker) (Phi PhiN : Buf) (deltas0 : Nat → ℚ)
    (hstride : eq.nXArr = mainNXArr eq.nX)
    (hX : eq.nX + 9 < 4294967296)
    (hfit : eq.nXArr * (eq.nY + 2) < 18446744073709551616)
    (hW : 1 ≤ eq.nThreads) (hfair : FairSchedule eq sched) :
    (∀ j cur next p, 1 ≤ j → j ≤ eq.nY →
        countLine eq cur next (wrap ((j : Int) * eq.nXArr)) p ≠ next p →
        j * eq.nXArr ≤ p ∧ p ≤ j * eq.nXArr + eq.nXArr - 1)
    ∧ (∀ w ∈ solveWorkers eq, 1 ≤ w.jStart ∧ w.jStart + w.jLength ≤ eq.nY + 1)
    ∧ (∀ p, (p < eq.nXArr ∨ ((eq.nY + 1) * eq.nXArr ≤ p ∧ p < (eq.nY + 2) * eq.nXArr)) →
        (solve eq noDelta sched (initState Phi PhiN deltas0)).mem.PhiGlobal p = Phi p
        ∧ (solve eq noDelta sched (initState Phi PhiN deltas0)).mem.PhiNGlobal p = PhiN p) := by
  have hn : eq.nX + 2 ≤ eq.nXArr := by rw [hstride]; exact (mainNXArr_bounds _ hX).1
  have hf : (eq.nY + 1) * eq.nXArr + eq.nXArr ≤ 18446744073709551616 := by
    have : (eq.nY + 1) * eq.nXArr + eq.nXArr = eq.nXArr * (eq.nY + 2) := by ring
    omega
  have hR : eq.nY < 18446744073709551616 := by
    have : eq.nY + 1 ≤ (eq.nY + 1) * eq.nXArr := Nat.le_mul_of_pos_right _ (by omega)
    omega
  refine ⟨?_, fun w hw => solveWorkers_bounds eq hW hR w hw, ?_⟩
  · intro j cur next p hj1 hj2 hne
    have hmul : j * eq.nXArr + eq.nXArr ≤ (eq.nY + 1) * eq.nXArr := by
      have : (j + 1) * eq.nXArr ≤ (eq.nY + 1) * eq.nXArr := Nat.mul_le_mul_right _ (by omega)
      rw [Nat.add_mul] at this; omega
    have hge : eq.nXArr ≤ j * eq.nXArr := Nat.le_mul_of_pos_left _ hj1
    have e2 : wrap ((j : Int) * eq.nXArr) = j * eq.nXArr := by
      have : ((j : Int) * eq.nXArr) = ((j * eq.nXArr : Nat) : Int) := by push_cast; rfl
      rw [this, wrap_natCast _ (by omega)]
    rw [e2, countLine_apply eq cur next _ p hge (by omega) (by omega)] at hne
    by_cases hw : j * eq.nXArr ≤ p ∧ lineWrites eq (p - j * eq.nXArr) = true
    · have := lineWrites_le eq (by omega) _ hw.2
      omega
    · rw [if_neg hw] at hne
      exact absurd rfl hne
  · intro p hp
    unfold solve
    rw [run_mem eq noDelta sched Phi PhiN deltas0 hW hn hfit hfair]
    have hrow : p / eq.nXArr < 1 ∨ eq.nY + 1 ≤ p / eq.nXArr := by
      rcases hp with h | ⟨h1, h2⟩
      · left; rw [Nat.div_eq_of_lt h]; omega
      · right
        have : p / eq.nXArr = eq.nY + 1 := Nat.div_eq_of_lt_le h1 h2
        omega
    exact sweepsMem_outside eq _ p hrow eq.nT

/-! ## The zero field when all of memory is zero -/

theorem vecResult_zero (eq : JacobiEquasion) (jArr i : Nat) (hD : eq.D = fun _ => 0) :
    vecResult eq (fun _ => 0) jArr i = fun _ => 0 := by
  funext k
  simp [vecResult, mm256_fmadd_ps, mm256_add_ps, mm256_loadu_ps, mm256_set1_ps, hD]

theorem storeu_zero (off : Nat) :
    mm256_storeu_ps (fun _ => 0) off (fun _ => 0) = fun _ => 0 := by
  funext p
  simp [mm256_storeu_ps]

theorem countLineVec_zero (eq : JacobiEquasion) (jArr : Nat) (hD : eq.D = fun _ => 0) :
    ∀ fuel i, countLineVec eq (fun _ => 0) jArr fuel i (fun _ => 0) = fun _ => 0 := by
  intro fuel
  induction fuel with
  | zero => intro i; rfl
  | succ fuel ih =>
    intro i
    rw [countLineVec]
    split_ifs
    · rw [vecResult_zero eq jArr i hD, storeu_zero, ih]
    · rfl

theorem countLineTail_zero (eq : JacobiEquasion) (jArr : Nat) (hD : eq.D = fun _ => 0) :
    ∀ fuel i, countLineTail eq (fun _ => 0) jArr fuel i (fun _ => 0) = fun _ => 0 := by
  intro fuel
  induction fuel with
  | zero => intro i; rfl
  | succ fuel ih =>
    intro i
    rw [countLineTail]
    split_ifs
    · have hs : scalarResult eq (fun _ => 0) jArr i = 0 := by simp [scalarResult, hD]
      have hu : Function.update (fun _ => (0 : ℚ)) (wrap ((i : Int) + jArr)) 0 = fun _ => 0 := by
        funext p
        by_cases hp : p = wrap ((i : Int) + jArr)
        · rw [hp, Function.update_same]
        · rw [Function.update_noteq hp]
      rw [hs, hu, ih]
    · rfl

theorem countBand_zero (eq : JacobiEquasion) (jStart jLength : Nat) (hD : eq.D = fun _ => 0) :
    countBand eq (fun _ => 0) (fun _ => 0) jStart jLength = fun _ => 0 := by
  have hline : ∀ jArr, countLine eq (fun _ => 0) (fun _ => 0) jArr = fun _ => 0 := by
    intro jArr
    rw [countLine, countLineVec_zero eq jArr hD, countLineTail_zero eq jArr hD]
  have hrows : ∀ fuel jEnd j, countRows eq (fun _ => 0) jEnd fuel j (fun _ => 0) = fun _ => 0 := by
    intro fuel
    induction fuel with
    | zero => intro jEnd j; rfl
    | succ fuel ih =>
      intro jEnd j
      rw [countRows]
      split_ifs
      · rw [hline, ih]
      · rfl
  exact hrows _ _ _

theorem run_zero (eq : JacobiEquasion) (noDelta : Bool) (sched : Nat → List Worker)
    (hD : eq.D = fun _ => 0) (s : State)
    (hs : s.mem.PhiGlobal = (fun _ => 0) ∧ s.mem.PhiNGlobal = (fun _ => 0)) :
    ∀ n, (run eq noDelta sched n s).mem.PhiGlobal = (fun _ => 0)
      ∧ (run eq noDelta sched n s).mem.PhiNGlobal = (fun _ => 0) := by
  have hphase : ∀ (t : State) (w : Worker),
      (t.mem.PhiGlobal = (fun _ => 0) ∧ t.mem.PhiNGlobal = (fun _ => 0)) →
      ((workerPhase eq noDelta t w).mem.PhiGlobal = (fun _ => 0)
        ∧ (workerPhase eq noDelta t w).mem.PhiNGlobal = (fun _ => 0)) := by
    intro t w ht
    simp only [workerPhase, ht.1, ht.2, countBand_zero eq _ _ hD]
    split_ifs <;> exact ⟨rfl, rfl⟩
  have hfold : ∀ (ws : List Worker) (t : State),
      (t.mem.PhiGlobal = (fun _ => 0) ∧ t.mem.PhiNGlobal = (fun _ => 0)) →
      ((ws.foldl (workerPhase eq noDelta) t).mem.PhiGlobal = (fun _ => 0)
        ∧ (ws.foldl (workerPhase eq noDelta) t).mem.PhiNGlobal = (fun _ => 0)) := by
    intro ws
    induction ws with
    | nil => intro t ht; exact ht
    | cons w ws ih => intro t ht; rw [List.foldl_cons]; exact ih _ (hphase t w ht)
  intro n
  induction n with
  | zero => exact hs
  | succ n ih =>
    rw [run, (iteration_mem eq noDelta _ _).1]
    exact hfold _ _ ih

/-- If the source buffer `D` is zero and both field buffers are zero, and the memory around
the buffers is zero as well (the maps are zero at every offset, also outside the buffers),
then both maps are zero everywhere after `solve`, for every grid size, stride, worker count
and schedule. -/
theorem zero_memory_fixed_point (eq : JacobiEquasion) (noDelta : Bool) (sched : Nat → List Worker)
    (deltas0 : Nat → ℚ) (hD : ∀ p, eq.D p = 0) :
    (∀ p, (solve eq noDelta sched (initState (fun _ => 0) (fun _ => 0) deltas0)).mem.PhiGlobal p
        = 0)
    ∧ (∀ p, (solve eq noDelta sched (initState (fun _ => 0) (fun _ => 0) deltas0)).mem.PhiNGlobal p
        = 0) := by
  have h := run_zero eq noDelta sched (funext hD) (initState (fun _ => 0) (fun _ => 0) deltas0)
    ⟨rfl, rfl⟩ eq.nT
  unfold solve
  exact ⟨fun p => by rw [h.1], fun p => by rw [h.2]⟩

/-! ## Instances of the theorems above at concrete inputs -/

theorem rankOrder_fair (eq : JacobiEquasion) : FairSchedule eq (rankOrder eq) :=
  fun _ => List.Perm.refl _

theorem reverse_fair (eq : JacobiEquasion) :
    FairSchedule eq (fun _ => (solveWorkers eq).reverse) :=
  fun _ => List.reverse_perm _

/-- C3 at `R = 10`, `W = 4`: the last worker gets the band `(7, 4)`. -/
theorem C3_bands_partition_witness :
    bandOf (mainEq 4 9 10 1 (1/5) (1/5) (1/20) (fun _ => 0)) 3 = some (7, 4) :=
  (C3_bands_partition (mainEq 4 9 10 1 (1/5) (1/5) (1/20) (fun _ => 0))
    (by decide) (by decide) (by decide)).2.1

/-- C4 at `nX = 9`, `nY = 4`, four workers running in reverse order, three sweeps: cell 3 of
row 0 keeps its initial value in both buffers. -/
theorem C4_boundary_rows_kept_witness :
    (solve (mainEq 4 9 4 3 (1/5) (1/5) (1/20) (fun p => (p : ℚ))) false
        (fun _ => (solveWorkers (mainEq 4 9 4 3 (1/5) (1/5) (1/20) (fun p => (p : ℚ)))).reverse)
        (initState (fun p => (p : ℚ) + 1) (fun p => (p : ℚ) + 2) (fun _ => 0))).mem.PhiGlobal 3
      = (fun p => (p : ℚ) + 1) 3
    ∧ (solve (mainEq 4 9 4 3 (1/5) (1/5) (1/20) (fun p => (p : ℚ))) false
        (fun _ => (solveWorkers (mainEq 4 9 4 3 (1/5) (1/5) (1/20) (fun p => (p : ℚ)))).reverse)
        (initState (fun p => (p : ℚ) + 1) (fun p => (p : ℚ) + 2) (fun _ => 0))).mem.PhiNGlobal 3
      = (fun p => (p : ℚ) + 2) 3 :=
  (C4_boundary_rows_kept (mainEq 4 9 4 3 (1/5) (1/5) (1/20) (fun p => (p : ℚ))) false
    (fun _ => (solveWorkers (mainEq 4 9 4 3 (1/5) (1/5) (1/20) (fun p => (p : ℚ)))).reverse)
    (fun p => (p : ℚ) + 1) (fun p => (p : ℚ) + 2) (fun _ => 0) rfl (by decide) (by decide)
    (by decide) (reverse_fair _)).2.2 3 (Or.inl (by decide))

/-- C5 at `nX = 9`, `nY = 10`, three sweeps: one worker against four workers that run in
reverse order. -/
theorem C5_worker_count_invariance_witness :
    (solve (withThreads (mainEq 4 9 10 3 (1/5) (1/5) (1/20) (fun p => (p : ℚ))) 1) false
        (rankOrder (withThreads (mainEq 4 9 10 3 (1/5) (1/5) (1/20) (fun p => (p : ℚ))) 1))
        (initState (fun _ => 0) (fun _ => 0) (fun _ => 0))).mem
      = (solve (withThreads (mainEq 4 9 10 3 (1/5) (1/5) (1/20) (fun p => (p : ℚ))) 4) false
        (fun _ => (solveWorkers
          (withThreads (mainEq 4 9 10 3 (1/5) (1/5) (1/20) (fun p => (p : ℚ))) 4)).reverse)
        (initState (fun _ => 0) (fun _ => 0) (fun _ => 0))).mem :=
  C5_worker_count_invariance (mainEq 4 9 10 3 (1/5) (1/5) (1/20) (fun p => (p : ℚ))) 1 4
    false false _ _ (fun _ => 0) (fun _ => 0) (fun _ => 0) (fun _ => 0) rfl (by decide)
    (by decide) (by decide) (by decide) (rankOrder_fair _) (reverse_fair _)

/-- C7 at `nT = 3`, four workers: the output of the last sweep is in `PhiNGlobal`. -/
theorem C7_roles_by_parity_witness :
    (solve (mainEq 4 9 4 3 (1/5) (1/5) (1/20) (fun p => (p : ℚ))) false
        (rankOrder (mainEq 4 9 4 3 (1/5) (1/5) (1/20) (fun p => (p : ℚ))))
        (initState (fun _ => 0) (fun _ => 0) (fun _ => 0))).mem.PhiNGlobal
      = sweepWorkers (mainEq 4 9 4 3 (1/5) (1/5) (1/20) (fun p => (p : ℚ)))
          (run (mainEq 4 9 4 3 (1/5) (1/5) (1/20) (fun p => (p : ℚ))) false
            (rankOrder (mainEq 4 9 4 3 (1/5) (1/5) (1/20) (fun p => (p : ℚ)))) 2
            (initState (fun _ => 0) (fun _ => 0) (fun _ => 0))).mem.PhiGlobal
          (run (mainEq 4 9 4 3 (1/5) (1/5) (1/20) (fun p => (p : ℚ))) false
            (rankOrder (mainEq 4 9 4 3 (1/5) (1/5) (1/20) (fun p => (p : ℚ)))) 2
            (initState (fun _ => 0) (fun _ => 0) (fun _ => 0))).mem.PhiNGlobal
          (rankOrder (mainEq 4 9 4 3 (1/5) (1/5) (1/20) (fun p => (p : ℚ))) 2) :=
  (C7_roles_by_parity (mainEq 4 9 4 3 (1/5) (1/5) (1/20) (fun p => (p : ℚ))) false
    (rankOrder (mainEq 4 9 4 3 (1/5) (1/5) (1/20) (fun p => (p : ℚ))))
    (fun _ => 0) (fun _ => 0) (fun _ => 0) (by decide) (rankOrder_fair _)).2.2.2.1
    (by decide) (by decide)

/-! ## Where the code departs from the spec -/

set_option maxRecDepth 100000 in
/-- Claim C2. The kernel does write boundary columns.  With `nX = 7` (stride 16) the vector group
of row 1 stores into column `nX + 1 = 8`; with `nX = 1` (stride 8) the scalar loop of row 1
starts at column 0; and after two sweeps of `solve` from zero fields with a source that is
zero on the boundary, the boundary cell `(8, 1)` of `PhiGlobal` holds `1/5`, not its initial
value `0`. -/
theorem C2_boundary_column_written :
    countLine (mainEq 1 7 1 1 (1/5) (1/5) (1/20) (fun _ => 0)) (fun p => if p = 23 then 1 else 0)
        (fun _ => 0) (1 * mainNXArr 7) (cell (mainNXArr 7) 8 1) = 1 / 5
    ∧ countLine (mainEq 1 1 1 1 (1/5) (1/5) (1/20) (fun _ => 0)) (fun p => if p = 9 then 1 else 0)
        (fun _ => 0) (1 * mainNXArr 1) (cell (mainNXArr 1) 0 1) = 1 / 5
    ∧ (solve (mainEq 1 7 1 2 (1/5) (1/5) (1/20) (fun p => if p = 23 then 1 else 0)) true
          (rankOrder (mainEq 1 7 1 2 (1/5) (1/5) (1/20) (fun p => if p = 23 then 1 else 0)))
          (initState (fun _ => 0) (fun _ => 0) (fun _ => 0))).mem.PhiGlobal
        (cell (mainNXArr 7) 8 1) = 1 / 5 := by
  refine ⟨by decide!, by decide!, by decide!⟩

set_option maxRecDepth 100000 in
/-- Claim C8. The method `delta` does not return the maximum of `|PhiGlobal[c] - PhiNGlobal[c]|`
over the band when that maximum is below `numeric_limits<float>::min()`: with the two buffers
equal, every difference is `0`, and `delta(1, 1)` returns `2^-126`, the value `vMax` is
seeded with. -/
theorem C8_delta_seed_floor :
    delta (mainEq 1 2 1 1 (1/5) (1/5) (1/20) (fun _ => 0))
        { PhiGlobal := fun p => (p : ℚ) / 7, PhiNGlobal := fun p => (p : ℚ) / 7 } 1 1
      = 1 / 2 ^ 126
    ∧ bandMaxSpec { PhiGlobal := fun p => (p : ℚ) / 7, PhiNGlobal := fun p => (p : ℚ) / 7 }
        (1 * mainNXArr 2) ((1 + 1) * mainNXArr 2) = 0
    ∧ ∀ c : Nat, |(fun p : Nat => (p : ℚ) / 7) c - (fun p : Nat => (p : ℚ) / 7) c| = 0 := by
  refine ⟨by decide!, by decide!, fun c => by simp⟩

set_option maxRecDepth 100000 in
/-- Claim C10. For an even iteration count the buffer `main` dumps does not hold the field
after all sweeps.  With `nX = nY = 4`, four workers, `nT = 2` and a source that is `1` in
cell `(1, 2)`: after two sweeps the interior cell `(1, 1)` of the field is `1/5`, which is
what `PhiGlobal` holds, while the dumped buffer `PhiN` holds `0` there, the value the first
sweep wrote. -/
theorem C10_dump_stale_for_even_nT :
    mainDumped (mainEq 4 4 4 2 (1/5) (1/5) (1/20) (fun p => if p = 17 then 1 else 0))
        (rankOrder (mainEq 4 4 4 2 (1/5) (1/5) (1/20) (fun p => if p = 17 then 1 else 0)))
        (fun _ => 0) (cell (mainNXArr 4) 1 1) = 0
    ∧ fieldSpec (mainEq 4 4 4 2 (1/5) (1/5) (1/20) (fun p => if p = 17 then 1 else 0))
        (fun _ => 0) 2 (cell (mainNXArr 4) 1 1) = 1 / 5
    ∧ fieldSpec (mainEq 4 4 4 2 (1/5) (1/5) (1/20) (fun p => if p = 17 then 1 else 0))
        (fun _ => 0) 1 (cell (mainNXArr 4) 1 1) = 0
    ∧ (solve (mainEq 4 4 4 2 (1/5) (1/5) (1/20) (fun p => if p = 17 then 1 else 0)) false
          (rankOrder (mainEq 4 4 4 2 (1/5) (1/5) (1/20) (fun p => if p = 17 then 1 else 0)))
          (initState (fun _ => 0) (fun _ => 0) (fun _ => 0))).mem.PhiGlobal
        (cell (mainNXArr 4) 1 1) = 1 / 5 := by
  refine ⟨by decide!, by decide!, by decide!, by decide!⟩

/-! ## C15: the horizontal fold of `delta` -/

/-- The fold of `delta` written out lane by lane. -/
theorem deltaFold_eq (v : M256) :
    deltaFold v
      = max (max (max (v 0) (v 1)) (max (v 2) (v 3))) (max (max (v 4) (v 5)) (max (v 6) (v 7))) := by
  rfl

theorem deltaFold_ge_lane (v : M256) (k : Fin 8) : v k ≤ deltaFold v := by
  rw [deltaFold_eq]
  fin_cases k <;> simp [le_max_iff]

/-- Claim C15. The horizontal fold in `delta` is a correct max-reduction: for every content
of the eight lanes of `vMax`, the step `vMax = max(vMax, shuffle(vMax, _MM_SHUFFLE(2,3,0,1)))`,
the step `vMax = max(vMax, shuffle(vMax, _MM_SHUFFLE(1,0,3,2)))` and `max(vMax[0], vMax[4])`
yield the maximum of the eight original lanes: a value that is one of the lanes and is not
below any of them. -/
theorem C15_fold_is_max (v : M256) :
    (∀ k : Fin 8, v k ≤ deltaFold v) ∧ (∃ k : Fin 8, deltaFold v = v k) := by
  refine ⟨deltaFold_ge_lane v, ?_⟩
  rw [deltaFold_eq]
  · rcases max_choice (max (max (v 0) (v 1)) (max (v 2) (v 3)))
        (max (max (v 4) (v 5)) (max (v 6) (v 7))) with h | h
    · rw [h]
      rcases max_choice (max (v 0) (v 1)) (max (v 2) (v 3)) with h1 | h1
      · rw [h1]
        rcases max_choice (v 0) (v 1) with h2 | h2
        · exact ⟨0, h2⟩
        · exact ⟨1, h2⟩
      · rw [h1]
        rcases max_choice (v 2) (v 3) with h2 | h2
        · exact ⟨2, h2⟩
        · exact ⟨3, h2⟩
    · rw [h]
      rcases max_choice (max (v 4) (v 5)) (max (v 6) (v 7)) with h1 | h1
      · rw [h1]
        rcases max_choice (v 4) (v 5) with h2 | h2
        · exact ⟨4, h2⟩
        · exact ⟨5, h2⟩
      · rw [h1]
        rcases max_choice (v 6) (v 7) with h2 | h2
        · exact ⟨6, h2⟩
        · exact ⟨7, h2⟩

/-! ## C13: the padded stride and the buffer size -/

theorem mainArrSize_eq (nX nY : Nat) :
    mainArrSize nX nY = (mainNXArr nX * (nY + 2)) % 18446744073709551616 := by
  unfold mainArrSize mainNYArr wrap
  have h1 : (((nY : Int) + 2) % 18446744073709551616).toNat = (nY + 2) % 18446744073709551616 := by
    omega
  rw [h1]
  have h2 : ((mainNXArr nX : Int) * (((nY + 2) % 18446744073709551616 : Nat) : Int))
      = ((mainNXArr nX * ((nY + 2) % 18446744073709551616) : Nat) : Int) := by
    push_cast; rfl
  rw [h2]
  have h3 : (((mainNXArr nX * ((nY + 2) % 18446744073709551616) : Nat) : Int)
      % 18446744073709551616).toNat
      = (mainNXArr nX * ((nY + 2) % 18446744073709551616)) % 18446744073709551616 := by
    omega
  rw [h3, Nat.mul_mod, Nat.mod_mod, ← Nat.mul_mod]

/-- Claim C13. For every grid width with `nX + 9 < 2^32` the padded row stride of `main`,
`nXArr = (nX + 2 + 7) & 0xFFFFFFF8`, is the smallest multiple of 8 that is at least `nX + 2`:
it is a multiple of 8, it is at least `nX + 2` (the `nX` interior cells and one halo cell on
each side fit in a row), and no smaller multiple of 8 is at least `nX + 2`.  The buffer size
is the `size_t` product `arrSize = nXArr * (nY + 2)`, which is the product itself whenever
that is below `2^64`. -/
theorem C13_padded_stride (nX nY : Nat) (hX : nX + 9 < 4294967296) :
    mainNXArr nX % 8 = 0
    ∧ nX + 2 ≤ mainNXArr nX
    ∧ (∀ m, m % 8 = 0 → nX + 2 ≤ m → mainNXArr nX ≤ m)
    ∧ mainArrSize nX nY = (mainNXArr nX * (nY + 2)) % 18446744073709551616
    ∧ (mainNXArr nX * (nY + 2) < 18446744073709551616 →
        mainArrSize nX nY = mainNXArr nX * (nY + 2)) := by
  have h := mainNXArr_eq nX hX
  refine ⟨by omega, by omega, fun m h1 h2 => by omega, mainArrSize_eq nX nY, fun hlt => ?_⟩
  rw [mainArrSize_eq, Nat.mod_eq_of_lt hlt]

/-- C13 at `nX = 10`, `nY = 10`: the buffer has `nXArr * 12` cells. -/
theorem C13_padded_stride_witness :
    mainArrSize 10 10 = mainNXArr 10 * (10 + 2) :=
  (C13_padded_stride 10 10 (by decide)).2.2.2.2 (by decide)

/-! ## C16: more workers than rows -/

/-- The number of workers `solve` runs is `nThreads`. -/
theorem solveWorkers_length (eq : JacobiEquasion) (hW : 1 ≤ eq.nThreads) :
    (solveWorkers eq).length = eq.nThreads := by
  have h : ((solveWorkers eq).map (fun w => w.rank)).length = eq.nThreads := by
    unfold solveWorkers
    rw [List.map_append, initThreads_ranks eq _ _ _ (by omega)]
    simp
    omega
  rw [List.length_map] at h
  exact h

/-- Claim C16. When the worker count `W = nThreads` exceeds the interior row count `R = nY`
(`R ≥ 1`, hence `W ≥ 2`), `solve` still runs its `W` workers (the engine has no check and no
error result): `⌊R/W⌋ = 0`, the workers `0 .. W-2` receive the empty band `(1, 0)` starting
at row 1, the worker `W-1` receives the band `(1, R)` of all rows `1 .. R`, and every
interior row lies in the band of rank `W-1` and of no other rank. -/
theorem C16_more_workers_than_rows (eq : JacobiEquasion) (hR1 : 1 ≤ eq.nY)
    (hWR : eq.nY < eq.nThreads) (hR : eq.nY < 18446744073709551616) :
    (solveWorkers eq).length = eq.nThreads
    ∧ eq.nY / eq.nThreads = 0
    ∧ (∀ r, r + 1 < eq.nThreads → bandOf eq r = some (1, 0))
    ∧ bandOf eq (eq.nThreads - 1) = some (1, eq.nY)
    ∧ (∀ j r b, 1 ≤ j → j ≤ eq.nY → bandOf eq r = some b →
        ((b.1 ≤ j ∧ j < b.1 + b.2) ↔ r = eq.nThreads - 1)) := by
  have hW : 1 ≤ eq.nThreads := by omega
  have hdiv : eq.nY / eq.nThreads = 0 := Nat.div_eq_of_lt hWR
  have hmod : eq.nY % eq.nThreads = eq.nY := Nat.mod_eq_of_lt hWR
  have hsmall : ∀ r, r + 1 < eq.nThreads → bandOf eq r = some (1, 0) := by
    intro r hr
    rw [bandOf_eq eq hW hR, if_pos (by omega), workerOf]
    simp only []
    rw [if_neg (by omega), hdiv, Nat.mul_zero]
  have hlast : bandOf eq (eq.nThreads - 1) = some (1, eq.nY) := by
    rw [bandOf_eq eq hW hR, if_pos (by omega), workerOf]
    simp only []
    rw [if_pos (by omega), hdiv, hmod]
    simp
  refine ⟨solveWorkers_length eq hW, hdiv, hsmall, hlast, ?_⟩
  intro j r b hj1 hj2 hb
  by_cases hr : r = eq.nThreads - 1
  · rw [hr, hlast] at hb
    cases hb
    simp only [hr, iff_true]
    omega
  · by_cases hr2 : r + 1 < eq.nThreads
    · rw [hsmall r hr2] at hb
      cases hb
      simp only [hr, iff_false]
      omega
    · rw [bandOf_eq eq hW hR, if_neg (by omega)] at hb
      cases hb

/-- C16 at `R = 3`, `W = 4`: the last worker has the band of the rows `1 .. 3`. -/
theorem C16_more_workers_than_rows_witness :
    bandOf (mainEq 4 9 3 1 (1/5) (1/5) (1/20) (fun _ => 0)) (4 - 1) = some (1, 3) :=
  (C16_more_workers_than_rows (mainEq 4 9 3 1 (1/5) (1/5) (1/20) (fun _ => 0))
    (by decide) (by decide) (by decide)).2.2.2.1

/-! ## C14: the reported value is the largest local delta -/

theorem deltaVec_ge (m : Mem) (bound : Nat) (c : ℚ) :
    ∀ (fuel i : Nat) (v : M256), (∀ k, c ≤ v k) → ∀ k, c ≤ deltaVec m bound fuel i v k := by
  intro fuel
  induction fuel with
  | zero => intro i v hv k; exact hv k
  | succ fuel ih =>
    intro i v hv k
    rw [deltaVec]
    split_ifs
    · exact ih _ _ (fun k => le_trans (hv k) (le_max_left _ _)) k
    · exact hv k

theorem deltaTail_ge (m : Mem) (absIndexEnd : Nat) (c : ℚ) :
    ∀ (fuel i : Nat) (mx : ℚ), c ≤ mx → c ≤ deltaTail m absIndexEnd fuel i mx := by
  intro fuel
  induction fuel with
  | zero => intro i mx h; exact h
  | succ fuel ih =>
    intro i mx h
    rw [deltaTail]
    split_ifs
    · exact ih _ _ (le_trans h (le_max_left _ _))
    · exact h

/-- The method `delta` never returns less than the value its register is seeded with. -/
theorem delta_ge_fltMin (eq : JacobiEquasion) (m : Mem) (jStart jLength : Nat) :
    fltMin ≤ delta eq m jStart jLength := by
  unfold delta
  apply deltaTail_ge
  exact le_trans (deltaVec_ge m _ fltMin _ _ _ (fun _ => le_refl _) 0) (deltaFold_ge_lane _ 0)

theorem foldl_workerPhase_out (eq : JacobiEquasion) (noDelta : Bool) :
    ∀ (ws : List Worker) (s : State), (ws.foldl (workerPhase eq noDelta) s).out = s.out := by
  intro ws
  induction ws with
  | nil => intro s; rfl
  | cons w ws ih => intro s; rw [List.foldl_cons, ih]; rfl

/-- An entry of `deltas` whose rank does not run is left as it was. -/
theorem foldl_workerPhase_deltas_other (eq : JacobiEquasion) (r : Nat) :
    ∀ (ws : List Worker) (s : State), r ∉ ws.map (fun w => w.rank) →
      (ws.foldl (workerPhase eq false) s).deltas r = s.deltas r := by
  intro ws
  induction ws with
  | nil => intro s _; rfl
  | cons w ws ih =>
    intro s hr
    rw [List.map_cons, List.mem_cons, not_or] at hr
    rw [List.foldl_cons, ih _ hr.2]
    simp only [workerPhase, Bool.false_eq_true, if_false]
    exact Function.update_noteq hr.1 _ _

/-- After the workers `ws` have run, the entry of `deltas` of each of their ranks is a value
`delta` returned for the band of a worker of that rank. -/
theorem foldl_workerPhase_deltas (eq : JacobiEquasion) (r : Nat) :
    ∀ (ws : List Worker) (s : State), r ∈ ws.map (fun w => w.rank) →
      ∃ m w, w ∈ ws ∧ w.rank = r
        ∧ (ws.foldl (workerPhase eq false) s).deltas r = delta eq m w.jStart w.jLength := by
  intro ws
  induction ws with
  | nil => intro s h; cases h
  | cons w ws ih =>
    intro s hr
    rw [List.foldl_cons]
    by_cases hin : r ∈ ws.map (fun w => w.rank)
    · obtain ⟨m, w', hw', hrk, hd⟩ := ih (workerPhase eq false s w) hin
      exact ⟨m, w', List.mem_cons_of_mem _ hw', hrk, hd⟩
    · have hrw : r = w.rank := by
        rw [List.map_cons, List.mem_cons] at hr
        rcases hr with h | h
        · exact h
        · exact absurd h hin
      rw [foldl_workerPhase_deltas_other eq r ws _ hin]
      refine ⟨(workerPhase eq false s w).mem, w, List.mem_cons_self _ _, hrw.symm, ?_⟩
      simp only [workerPhase, Bool.false_eq_true, if_false]
      rw [hrw, Function.update_same]

/-- The reduction is not below its seed nor below any entry, and it is the seed or one of
the entries. -/
theorem foldl_max_spec (d : Nat → ℚ) :
    ∀ (l : List Nat) (a : ℚ),
      a ≤ l.foldl (fun a r => max a (d r)) a
      ∧ (∀ r ∈ l, d r ≤ l.foldl (fun a r => max a (d r)) a)
      ∧ (l.foldl (fun a r => max a (d r)) a = a
          ∨ ∃ r ∈ l, l.foldl (fun a r => max a (d r)) a = d r) := by
  intro l
  induction l with
  | nil =>
    intro a
    refine ⟨le_refl _, ?_, Or.inl rfl⟩
    intro r h
    exact absurd h (List.not_mem_nil r)
  | cons x xs ih =>
    intro a
    obtain ⟨h1, h2, h3⟩ := ih (max a (d x))
    rw [List.foldl_cons]
    refine ⟨le_trans (le_max_left _ _) h1, ?_, ?_⟩
    · intro r hr
      rcases List.mem_cons.mp hr with h | h
      · rw [h]; exact le_trans (le_max_right _ _) h1
      · exact h2 r h
    · rcases h3 with h | ⟨r, hr, h⟩
      · rcases max_choice a (d x) with hm | hm
        · left; rw [h, hm]
        · right; exact ⟨x, List.mem_cons_self _ _, by rw [h, hm]⟩
      · right; exact ⟨r, List.mem_cons_of_mem _ hr, h⟩

/-- Claim C14. In every iteration, under any fair schedule, the value the worker of rank 0
prints is the largest of the `nThreads` values `deltas[0 .. nThreads-1]` of that iteration:
each of these entries is a value `delta` returned in this iteration for the band of the
worker of that rank, the printed value is one of them, and none of them exceeds it.  The
seed `numeric_limits<float>::min()` of the reduction never shows, because `delta` itself
never returns less than this value. -/
theorem C14_reported_is_max (eq : JacobiEquasion) (sched : Nat → List Worker) (s : State)
    (k : Nat) (hW : 1 ≤ eq.nThreads) (hfair : FairSchedule eq sched) :
    (run eq false sched (k + 1) s).out
        = (run eq false sched k s).out ++ [reduceDeltas eq (run eq false sched (k + 1) s).deltas]
    ∧ (∀ r, r < eq.nThreads → ∃ m w, w ∈ sched k ∧ w.rank = r
        ∧ (run eq false sched (k + 1) s).deltas r = delta eq m w.jStart w.jLength)
    ∧ (∃ r, r < eq.nThreads
        ∧ reduceDeltas eq (run eq false sched (k + 1) s).deltas
            = (run eq false sched (k + 1) s).deltas r)
    ∧ (∀ r, r < eq.nThreads →
        (run eq false sched (k + 1) s).deltas r
          ≤ reduceDeltas eq (run eq false sched (k + 1) s).deltas) := by
  have hranks : ∀ r, r < eq.nThreads → r ∈ (sched k).map (fun w => w.rank) := by
    intro r hr
    rw [((hfair k).map _).mem_iff]
    unfold solveWorkers
    rw [List.map_append, initThreads_ranks eq _ _ _ (by omega), List.mem_append,
      List.mem_range'_1]
    by_cases h0 : r = 0
    · right; simp [h0]
    · left; omega
  have hdel : (run eq false sched (k + 1) s).deltas
      = ((sched k).foldl (workerPhase eq false) (run eq false sched k s)).deltas := by
    rw [run, iteration]; rfl
  have hentry : ∀ r, r < eq.nThreads → ∃ m w, w ∈ sched k ∧ w.rank = r
      ∧ (run eq false sched (k + 1) s).deltas r = delta eq m w.jStart w.jLength := by
    intro r hr
    rw [hdel]
    exact foldl_workerPhase_deltas eq r (sched k) _ (hranks r hr)
  have hge : ∀ r, r < eq.nThreads → fltMin ≤ (run eq false sched (k + 1) s).deltas r := by
    intro r hr
    obtain ⟨m, w, _, _, h⟩ := hentry r hr
    rw [h]
    exact delta_ge_fltMin eq m _ _
  obtain ⟨h1, h2, h3⟩ := foldl_max_spec (run eq false sched (k + 1) s).deltas
    (List.range eq.nThreads) fltMin
  have hle : ∀ r, r < eq.nThreads →
      (run eq false sched (k + 1) s).deltas r
        ≤ reduceDeltas eq (run eq false sched (k + 1) s).deltas :=
    fun r hr => h2 r (List.mem_range.mpr hr)
  refine ⟨?_, hentry, ?_, hle⟩
  · rw [run, iteration]
    simp only [Bool.false_eq_true, if_false]
    rw [foldl_workerPhase_out]
  · rcases h3 with h | ⟨r, hr, h⟩
    · refine ⟨0, by omega, ?_⟩
      have ha := hle 0 (by omega)
      have hb := hge 0 (by omega)
      unfold reduceDeltas at ha ⊢
      rw [h] at ha ⊢
      exact le_antisymm hb ha
    · exact ⟨r, List.mem_range.mp hr, h⟩

/-- C14 at four workers, `nX = 9`, `nY = 4`, first iteration: the printed value is not below
the delta of rank 2. -/
theorem C14_reported_is_max_witness :
    (run (mainEq 4 9 4 3 (1/5) (1/5) (1/20) (fun p => (p : ℚ))) false
        (rankOrder (mainEq 4 9 4 3 (1/5) (1/5) (1/20) (fun p => (p : ℚ)))) (0 + 1)
        (initState (fun _ => 0) (fun _ => 0) (fun _ => 0))).deltas 2
      ≤ reduceDeltas (mainEq 4 9 4 3 (1/5) (1/5) (1/20) (fun p => (p : ℚ)))
          (run (mainEq 4 9 4 3 (1/5) (1/5) (1/20) (fun p => (p : ℚ))) false
            (rankOrder (mainEq 4 9 4 3 (1/5) (1/5) (1/20) (fun p => (p : ℚ)))) (0 + 1)
            (initState (fun _ => 0) (fun _ => 0) (fun _ => 0))).deltas :=
  (C14_reported_is_max (mainEq 4 9 4 3 (1/5) (1/5) (1/20) (fun p => (p : ℚ)))
    (rankOrder (mainEq 4 9 4 3 (1/5) (1/5) (1/20) (fun p => (p : ℚ))))
    (initState (fun _ => 0) (fun _ => 0) (fun _ => 0)) 0 (by decide)
    (rankOrder_fair _)).2.2.2 2 (by decide)

/-! ## C17: the text dump -/

theorem dumpRow_eq (mtx : Buf) (nXArr jArr : Nat) (h1 : 1 ≤ nXArr)
    (hb : nXArr + jArr ≤ 18446744073709551616) :
    ∀ (fuel i : Nat), nXArr - 1 ≤ i + fuel →
      dumpRow mtx nXArr jArr fuel i
        = (List.range' i (nXArr - 1 - i)).flatMap
            (fun i => [Tok.num (mtx (i + jArr)), Tok.sp]) := by
  have eb : wrap ((nXArr : Int) - 1) = nXArr - 1 := by unfold wrap; omega
  intro fuel
  induction fuel with
  | zero =>
    intro i hf
    have : nXArr - 1 - i = 0 := by omega
    rw [dumpRow, this]
    rfl
  | succ fuel ih =>
    intro i hf
    rw [dumpRow, eb]
    by_cases hlt : i < nXArr - 1
    · have e1 : wrap ((i : Int) + 1) = i + 1 := by unfold wrap; omega
      have e2 : wrap ((i : Int) + jArr) = i + jArr := by unfold wrap; omega
      have e3 : nXArr - 1 - i = (nXArr - 1 - (i + 1)) + 1 := by omega
      rw [if_pos hlt, e1, e2, ih (i + 1) (by omega), e3, List.range'_succ, List.flatMap_cons]
      rfl
    · have : nXArr - 1 - i = 0 := by omega
      rw [if_neg hlt, this]
      rfl

theorem dumpRows_eq (mtx : Buf) (nXArr nYArr : Nat) (h1 : 1 ≤ nXArr) (h2 : 1 ≤ nYArr)
    (hb : nXArr * nYArr < 18446744073709551616) :
    ∀ (fuel r : Nat), nYArr - 1 ≤ r + fuel →
      dumpRows mtx nXArr nYArr fuel (r * nXArr)
        = (List.range' r (nYArr - 1 - r)).flatMap (dumpLineSpec mtx nXArr) := by
  have hmul : nXArr * (nYArr - 1) + nXArr = nXArr * nYArr := by
    have : nYArr = (nYArr - 1) + 1 := by omega
    rw [this, Nat.mul_add, Nat.mul_one]
    simp
  have hle : nYArr ≤ nXArr * nYArr := Nat.le_mul_of_pos_left _ h1
  have eb : wrap ((nXArr : Int) * wrap ((nYArr : Int) - 1)) = nXArr * (nYArr - 1) := by
    have e0 : wrap ((nYArr : Int) - 1) = nYArr - 1 := by unfold wrap; omega
    have : ((nXArr : Int) * ((nYArr - 1 : Nat) : Int)) = ((nXArr * (nYArr - 1) : Nat) : Int) := by
      push_cast; rfl
    rw [e0, this, wrap_natCast _ (by omega)]
  intro fuel
  induction fuel with
  | zero =>
    intro r hf
    have : nYArr - 1 - r = 0 := by omega
    rw [dumpRows, this]
    rfl
  | succ fuel ih =>
    intro r hf
    rw [dumpRows, eb]
    by_cases hlt : r < nYArr - 1
    · have hr : r * nXArr + nXArr ≤ nXArr * (nYArr - 1) := by
        have : (r + 1) * nXArr ≤ (nYArr - 1) * nXArr := Nat.mul_le_mul_right _ hlt
        rw [Nat.add_mul, Nat.one_mul, Nat.mul_comm (nYArr - 1)] at this
        exact this
      have e1 : wrap ((r * nXArr : Nat) + (nXArr : Int)) = (r + 1) * nXArr := by
        rw [Nat.add_mul, Nat.one_mul]; unfold wrap; omega
      have e3 : nYArr - 1 - r = (nYArr - 1 - (r + 1)) + 1 := by omega
      have hcond : r * nXArr < nXArr * (nYArr - 1) := by omega
      rw [if_pos hcond, e1, ih (r + 1) (by omega), e3, List.range'_succ, List.flatMap_cons,
        dumpRow_eq mtx nXArr (r * nXArr) h1 (by omega) nXArr 1 (by omega)]
      have e4 : nXArr - 1 - 1 = nXArr - 2 := by omega
      rw [e4]
      unfold dumpLineSpec
      simp
    · have : nYArr - 1 - r = 0 := by omega
      have hcond : ¬ r * nXArr < nXArr * (nYArr - 1) := by
        have : (nYArr - 1) * nXArr ≤ r * nXArr := Nat.mul_le_mul_right _ (by omega)
        rw [Nat.mul_comm (nYArr - 1)] at this
        omega
      rw [if_neg hcond, this]
      rfl

theorem countP_isNl_lines (mtx : Buf) (nXArr : Nat) :
    ∀ (n s : Nat), ((List.range' s n).flatMap (dumpLineSpec mtx nXArr)).countP Tok.isNl = n := by
  have hline : ∀ r, (dumpLineSpec mtx nXArr r).countP Tok.isNl = 1 := by
    intro r
    have hvals : ∀ (m t : Nat), ((List.range' t m).flatMap
        (fun i => [Tok.num (mtx (i + r * nXArr)), Tok.sp])).countP Tok.isNl = 0 := by
      intro m
      induction m with
      | zero => intro t; rfl
      | succ m ih =>
        intro t
        rw [List.range'_succ, List.flatMap_cons, List.countP_append, ih]
        rfl
    unfold dumpLineSpec
    rw [List.countP_append, hvals]
    rfl
  intro n
  induction n with
  | zero => intro s; rfl
  | succ n ih =>
    intro s
    rw [List.range'_succ, List.flatMap_cons, List.countP_append, ih, hline]
    omega

/-- Claim C17. For `nXArr ≥ 2` and `nYArr ≥ 2` (and a buffer of `nXArr * nYArr` cells, a
count that fits `size_t`), `dump` writes exactly the lines of the grid rows
`r = 1 .. nYArr-2`, in order, the line of row `r` listing the `nXArr-2` values
`mtx[i + r*nXArr]` for `i = 1 .. nXArr-2` in column order, each followed by a space; that
makes `nYArr-2` lines, and no cell of the rows `0` and `nYArr-1` or of the columns `0` and
`nXArr-1` is printed. -/
theorem C17_dump_lines (mtx : Buf) (nXArr nYArr : Nat) (hX : 2 ≤ nXArr) (hY : 2 ≤ nYArr)
    (hb : nXArr * nYArr < 18446744073709551616) :
    dump mtx nXArr nYArr = dumpSpec mtx nXArr nYArr
    ∧ (dump mtx nXArr nYArr).countP Tok.isNl = nYArr - 2 := by
  have h : dump mtx nXArr nYArr = dumpSpec mtx nXArr nYArr := by
    have e := dumpRows_eq mtx nXArr nYArr (by omega) (by omega) hb nYArr 1 (by omega)
    rw [Nat.one_mul] at e
    have e4 : nYArr - 1 - 1 = nYArr - 2 := by omega
    rw [dump, e, e4]
    rfl
  refine ⟨h, ?_⟩
  rw [h, dumpSpec, countP_isNl_lines]

/-- C17 for a grid of 4 by 4 cells: the two lines of the rows 1 and 2. -/
theorem C17_dump_lines_witness :
    dump (fun p => (p : ℚ)) 4 4 = dumpSpec (fun p => (p : ℚ)) 4 4 :=
  (C17_dump_lines (fun p => (p : ℚ)) 4 4 (by decide) (by decide) (by decide)).1

/-! ## The cells `countLine` touches -/

theorem mem_lanes (off p : Nat) : p ∈ lanes off ↔ ∃ k, k < 8 ∧ p = off + k := by
  simp only [lanes, List.mem_map, List.mem_range]
  constructor
  · rintro ⟨k, hk, h⟩; exact ⟨k, hk, h.symm⟩
  · rintro ⟨k, hk, h⟩; exact ⟨k, hk, h.symm⟩

/-- An offset the vector loop touches is touched by an iteration at some column `i'` below
the loop bound, reached from the entry column in steps of 8. -/
theorem mem_vecLoopTrace (eq : JacobiEquasion) (touch : Nat → List Nat) (p : Nat)
    (hb : lineBound eq + 8 ≤ 18446744073709551616) :
    ∀ (fuel i : Nat), p ∈ vecLoopTrace eq touch fuel i →
      ∃ i', i ≤ i' ∧ i' < lineBound eq ∧ i' % 8 = i % 8 ∧ p ∈ touch i' := by
  intro fuel
  induction fuel with
  | zero => intro i h; cases h
  | succ fuel ih =>
    intro i h
    rw [vecLoopTrace] at h
    by_cases hlt : i < lineBound eq
    · have e8 : wrap ((i : Int) + 8) = i + 8 := by unfold wrap; omega
      rw [if_pos hlt, e8, List.mem_append] at h
      rcases h with h | h
      · exact ⟨i, le_refl _, hlt, rfl, h⟩
      · obtain ⟨i', h1, h2, h3, h4⟩ := ih (i + 8) h
        exact ⟨i', by omega, h2, by omega, h4⟩
    · rw [if_neg hlt] at h
      cases h

/-- An offset the scalar loop touches is touched by an iteration at some column `i'` from the
entry column up to `nX`. -/
theorem mem_tailLoopTrace (eq : JacobiEquasion) (touch : Nat → List Nat) (p : Nat)
    (hb : eq.nX + 1 < 18446744073709551616) :
    ∀ (fuel i : Nat), p ∈ tailLoopTrace eq touch fuel i →
      ∃ i', i ≤ i' ∧ i' < eq.nX + 1 ∧ p ∈ touch i' := by
  have en : wrap ((eq.nX : Int) + 1) = eq.nX + 1 := by unfold wrap; omega
  intro fuel
  induction fuel with
  | zero => intro i h; cases h
  | succ fuel ih =>
    intro i h
    rw [tailLoopTrace, en] at h
    by_cases hlt : i < eq.nX + 1
    · have e1 : wrap ((i : Int) + 1) = i + 1 := by unfold wrap; omega
      rw [if_pos hlt, e1, List.mem_append] at h
      rcases h with h | h
      · exact ⟨i, le_refl _, hlt, h⟩
      · obtain ⟨i', h1, h2, h3⟩ := ih (i + 1) h
        exact ⟨i', by omega, h2, h3⟩
    · rw [if_neg hlt] at h
      cases h

/-- Apart from the one case in which the scalar loop starts at column 0 in row 1, every
offset `countLine` reads or writes while it processes an interior row lies inside the
buffers of `nXArr * (nY + 2)` cells. -/
theorem countLine_accesses_bounded (eq : JacobiEquasion) (j p : Nat)
    (hstride : eq.nXArr = mainNXArr eq.nX) (hX : eq.nX + 9 < 4294967296)
    (hfit : eq.nXArr * (eq.nY + 2) < 18446744073709551616)
    (hj1 : 1 ≤ j) (hj2 : j ≤ eq.nY) (hok : 1 ≤ lineBound eq ∨ 2 ≤ j)
    (hp : p ∈ countLineReads eq (wrap ((j : Int) * eq.nXArr))
          ∨ p ∈ countLineCells eq (wrap ((j : Int) * eq.nXArr))) :
    p < eq.nXArr * (eq.nY + 2) := by
  have hn := mainNXArr_eq eq.nX hX
  rw [← hstride] at hn
  have hm := lineBound_eq eq (by omega)
  have hmul : j * eq.nXArr + eq.nXArr + eq.nXArr ≤ eq.nXArr * (eq.nY + 2) := by
    have : (j + 2) * eq.nXArr ≤ (eq.nY + 2) * eq.nXArr := Nat.mul_le_mul_right _ (by omega)
    rw [Nat.add_mul, Nat.mul_comm (eq.nY + 2)] at this
    omega
  have hge : eq.nXArr ≤ j * eq.nXArr := Nat.le_mul_of_pos_left _ hj1
  have hge2 : 2 ≤ j → eq.nXArr + eq.nXArr ≤ j * eq.nXArr := by
    intro h
    have : 2 * eq.nXArr ≤ j * eq.nXArr := Nat.mul_le_mul_right _ h
    omega
  have e2 : wrap ((j : Int) * eq.nXArr) = j * eq.nXArr := by
    have : ((j : Int) * eq.nXArr) = ((j * eq.nXArr : Nat) : Int) := by push_cast; rfl
    rw [this, wrap_natCast _ (by omega)]
  rw [e2] at hp
  obtain ⟨jArr, hjArr⟩ : ∃ jArr, jArr = j * eq.nXArr := ⟨_, rfl⟩
  rw [← hjArr] at hp hmul hge hge2
  unfold countLineReads countLineCells vecLoopWrites tailLoopWrites at hp
  simp only [List.mem_append] at hp
  rcases hp with (hp | hp) | (hp | hp)
  · obtain ⟨i, h1, h2, h3, h4⟩ := mem_vecLoopTrace eq _ p (by omega) _ _ hp
    simp only [vecReads, List.mem_append, mem_lanes] at h4
    unfold wrap at h4
    rcases h4 with ((((((⟨k, hk, h⟩ | ⟨k, hk, h⟩) | ⟨k, hk, h⟩) | ⟨k, hk, h⟩) | ⟨k, hk, h⟩)
      | ⟨k, hk, h⟩) | ⟨k, hk, h⟩) | ⟨k, hk, h⟩ <;> omega
  · obtain ⟨i, h1, h2, h4⟩ := mem_tailLoopTrace eq _ p (by omega) _ _ hp
    simp only [scalarReads, List.mem_cons, List.mem_singleton, List.not_mem_nil, or_false] at h4
    unfold wrap at h4
    rcases hok with hok | hok
    · rcases h4 with h | h | h | h | h | h | h | h <;> omega
    · have := hge2 hok
      rcases h4 with h | h | h | h | h | h | h | h <;> omega
  · obtain ⟨i, h1, h2, h3, h4⟩ := mem_vecLoopTrace eq _ p (by omega) _ _ hp
    simp only [vecCells, mem_lanes] at h4
    unfold wrap at h4
    obtain ⟨k, hk, h⟩ := h4
    omega
  · obtain ⟨i, h1, h2, h4⟩ := mem_tailLoopTrace eq _ p (by omega) _ _ hp
    simp only [scalarCells, List.mem_singleton] at h4
    unfold wrap at h4
    omega

/-- Claim C11. Not every access of `countLine` lies inside the buffers.  With `nX = 3`,
`nY = 3` (stride 8, buffers of 40 cells) the loop bound `(nX+1)&div8mask + 1` is 0, the
scalar loop of row 1 starts at column 0, and its read `Phi[i-1 + jArr-nXArr]` is at offset
`0 - 1 + 8 - 8` in `size_t` arithmetic, that is `2^64 - 1`, the cell before the first cell of
the buffer. -/
theorem C11_out_of_bounds_read :
    lineBound (mainEq 4 3 3 1 (1/5) (1/5) (1/20) (fun _ => 0)) = 0
    ∧ 18446744073709551615
        ∈ countLineReads (mainEq 4 3 3 1 (1/5) (1/5) (1/20) (fun _ => 0))
            (wrap ((1 : Int) * mainNXArr 3))
    ∧ mainArrSize 3 3 = 40
    ∧ ¬ 18446744073709551615 < mainArrSize 3 3 := by
  refine ⟨by decide, by decide, by decide, by decide⟩

/-! ## C12: which columns the two loops of `countLine` write -/

theorem lanes_eq (off : Nat) : lanes off = List.range' off 8 := by
  rw [lanes, List.range'_eq_map_range]

/-- The offsets the vector loop stores to, in order: the columns from the entry column up to
`vecEnd`. -/
theorem vecLoopTrace_cells (eq : JacobiEquasion) (jArr : Nat)
    (hb : lineBound eq + jArr + 8 ≤ 18446744073709551616) :
    ∀ (fuel i : Nat), lineBound eq ≤ i + 8 * fuel →
      vecLoopTrace eq (vecCells jArr) fuel i
        = List.range' (i + jArr) (vecEnd i (lineBound eq) - i) := by
  intro fuel
  induction fuel with
  | zero =>
    intro i hf
    have : vecEnd i (lineBound eq) = i := by unfold vecEnd; rw [if_neg (by omega)]
    rw [vecLoopTrace, this, Nat.sub_self]
    rfl
  | succ fuel ih =>
    intro i hf
    rw [vecLoopTrace]
    by_cases hlt : i < lineBound eq
    · have e8 : wrap ((i : Int) + 8) = i + 8 := by unfold wrap; omega
      have ej : wrap ((i : Int) + jArr) = i + jArr := by unfold wrap; omega
      have hend : vecEnd (i + 8) (lineBound eq) = vecEnd i (lineBound eq) := by
        unfold vecEnd; split_ifs <;> omega
      have hge : i + 8 ≤ vecEnd i (lineBound eq) := by
        unfold vecEnd; split_ifs; omega
      have hlen : vecEnd i (lineBound eq) - i = (vecEnd i (lineBound eq) - (i + 8)) + 8 := by
        omega
      rw [if_pos hlt, e8, ih (i + 8) (by omega), hend, vecCells, ej, lanes_eq, hlen,
        ← List.range'_append_1]
      congr 2
      omega
    · have : vecEnd i (lineBound eq) = i := by unfold vecEnd; rw [if_neg hlt]
      rw [if_neg hlt, this, Nat.sub_self]
      rfl

/-- The offsets the scalar loop writes, in order: the columns from the entry column up to
`nX`. -/
theorem tailLoopTrace_cells (eq : JacobiEquasion) (jArr : Nat)
    (hb : eq.nX + 1 + jArr < 18446744073709551616) :
    ∀ (fuel i : Nat), eq.nX + 1 ≤ i + fuel →
      tailLoopTrace eq (scalarCells jArr) fuel i = List.range' (i + jArr) (eq.nX + 1 - i) := by
  have en : wrap ((eq.nX : Int) + 1) = eq.nX + 1 := by unfold wrap; omega
  intro fuel
  induction fuel with
  | zero =>
    intro i hf
    have : eq.nX + 1 - i = 0 := by omega
    rw [tailLoopTrace, this]
    rfl
  | succ fuel ih =>
    intro i hf
    rw [tailLoopTrace, en]
    by_cases hlt : i < eq.nX + 1
    · have e1 : wrap ((i : Int) + 1) = i + 1 := by unfold wrap; omega
      have ej : wrap ((i : Int) + jArr) = i + jArr := by unfold wrap; omega
      have hlen : eq.nX + 1 - i = (eq.nX + 1 - (i + 1)) + 1 := by omega
      rw [if_pos hlt, e1, ih (i + 1) (by omega), scalarCells, ej, hlen, List.range'_succ]
      have : i + 1 + jArr = i + jArr + 1 := by omega
      rw [this]
      rfl
    · have : eq.nX + 1 - i = 0 := by omega
      rw [if_neg hlt, this]
      rfl

/-- With `q = ⌊(nX+1)/8⌋`, the vector loop of `countLine` stores to the columns `1 .. 8q` of
its row, and the scalar loop writes the columns from `8q + (nX+1) mod 2` to `nX`: it starts
at column `8q + 1` when `nX` is even and at column `8q` when `nX` is odd. -/
theorem countLine_writes_eq (eq : JacobiEquasion) (jArr : Nat)
    (hb : eq.nX + 9 + jArr ≤ 18446744073709551616) :
    vecLoopWrites eq jArr = List.range' (1 + jArr) (8 * ((eq.nX + 1) / 8))
    ∧ tailLoopWrites eq jArr
        = List.range' (8 * ((eq.nX + 1) / 8) + (eq.nX + 1) % 2 + jArr)
            (eq.nX + 1 - (8 * ((eq.nX + 1) / 8) + (eq.nX + 1) % 2)) := by
  have hm := lineBound_eq eq (by omega)
  have en : wrap ((eq.nX : Int) + 1) = eq.nX + 1 := by unfold wrap; omega
  constructor
  · rw [vecLoopWrites, vecLoopTrace_cells eq jArr (by omega) _ _ (by omega)]
    congr 1
    unfold vecEnd
    split_ifs <;> omega
  · rw [tailLoopWrites, en, tailLoopTrace_cells eq jArr (by omega) _ _ (by omega), hm]

/-- Claim C12. The scalar loop of `countLine` does not compute exactly the columns the vector
groups leave over.  With `nX = 9` (`q = 1`, stride 16, row 1 at offset 16) the vector loop
stores to the columns `1 .. 8` and the scalar loop writes the columns `8` and `9`, not only
column `9`: column 8 is computed by both loops.  With `nX = 3` (`q = 0`, stride 8, row 1 at
offset 8) the scalar loop writes the columns `0 .. 3`, not only `1 .. 3`. -/
theorem C12_tail_overlaps_vector :
    vecLoopWrites (mainEq 4 9 3 1 (1/5) (1/5) (1/20) (fun _ => 0)) (wrap ((1 : Int) * mainNXArr 9))
        = [17, 18, 19, 20, 21, 22, 23, 24]
    ∧ tailLoopWrites (mainEq 4 9 3 1 (1/5) (1/5) (1/20) (fun _ => 0))
          (wrap ((1 : Int) * mainNXArr 9))
        = [24, 25]
    ∧ cell (mainNXArr 9) 8 1 = 24
    ∧ tailLoopWrites (mainEq 4 3 3 1 (1/5) (1/5) (1/20) (fun _ => 0))
          (wrap ((1 : Int) * mainNXArr 3))
        = [8, 9, 10, 11]
    ∧ cell (mainNXArr 3) 0 1 = 8 := by
  refine ⟨by decide, by decide, by decide, by decide, by decide⟩

/-! ## C6: the zero field, with the memory around the buffers left open -/

/-- Whenever the loop bound of `countLine` is not 0, a sweep over the rows `1 .. nY` that
reads a buffer that is zero in its `nXArr * (nY + 2)` cells, with a source that is zero in
these cells, leaves an output buffer that was zero in these cells zero in these cells,
whatever the memory around the buffers holds. -/
theorem sweepFn_zeroOn (eq : JacobiEquasion) (Phi PhiN : Buf)
    (hstride : eq.nXArr = mainNXArr eq.nX) (hX : eq.nX + 9 < 4294967296)
    (hfit : eq.nXArr * (eq.nY + 2) < 18446744073709551616)
    (hlb : 1 ≤ lineBound eq)
    (hD : ZeroOn (eq.nXArr * (eq.nY + 2)) eq.D)
    (hPhi : ZeroOn (eq.nXArr * (eq.nY + 2)) Phi)
    (hPhiN : ZeroOn (eq.nXArr * (eq.nY + 2)) PhiN) :
    ZeroOn (eq.nXArr * (eq.nY + 2)) (sweepFn eq Phi PhiN 1 (eq.nY + 1)) := by
  intro p hp
  have hn := mainNXArr_eq eq.nX hX
  rw [← hstride] at hn
  have hm := lineBound_eq eq (by omega)
  unfold sweepFn
  by_cases hw : 1 ≤ p / eq.nXArr ∧ p / eq.nXArr < eq.nY + 1
      ∧ lineWrites eq (p % eq.nXArr) = true
  · rw [if_pos hw]
    obtain ⟨hr1, hr2, hlw⟩ := hw
    have hmul : p / eq.nXArr * eq.nXArr + eq.nXArr + eq.nXArr ≤ eq.nXArr * (eq.nY + 2) := by
      have : (p / eq.nXArr + 2) * eq.nXArr ≤ (eq.nY + 2) * eq.nXArr :=
        Nat.mul_le_mul_right _ (by omega)
      rw [Nat.add_mul, Nat.mul_comm (eq.nY + 2)] at this
      omega
    have hge : eq.nXArr ≤ p / eq.nXArr * eq.nXArr := Nat.le_mul_of_pos_left _ hr1
    obtain ⟨jArr, hjArr⟩ : ∃ jArr, jArr = p / eq.nXArr * eq.nXArr := ⟨_, rfl⟩
    obtain ⟨c, hc⟩ : ∃ c, c = p % eq.nXArr := ⟨_, rfl⟩
    rw [← hjArr] at hmul hge ⊢
    rw [← hc] at hlw ⊢
    have hcw := (lineWrites_iff eq c).mp hlw
    have hc1 : 1 ≤ c ∧ c + 1 < eq.nXArr := by
      unfold vecEnd at hcw
      split_ifs at hcw <;> omega
    have hst : stencil eq Phi (c + jArr) = 0 := by
      unfold stencil
      rw [hPhi _ (by omega), hPhi _ (by omega), hPhi _ (by omega), hPhi _ (by omega),
        hPhi _ (by omega), hPhi _ (by omega), hPhi _ (by omega), hPhi _ (by omega),
        hD _ (by omega)]
      simp
    unfold lineValue
    split_ifs
    · rw [scalarResult_eq eq Phi jArr c hc1.1 hge (by omega), hst]
    · exact hst
  · rw [if_neg hw]
    exact hPhiN p hp

/-- For every width other than 1, 3 and 5 (the widths at which the loop bound of `countLine`
is 0), with `main`'s stride, any worker count and any fair schedule: if the source and both
field buffers are zero in their `nXArr * (nY + 2)` cells, both field buffers are zero in
these cells after `solve`, whatever the memory around the buffers holds. -/
theorem zero_fixed_point_in_buffers (eq : JacobiEquasion) (noDelta : Bool)
    (sched : Nat → List Worker) (Phi PhiN : Buf) (deltas0 : Nat → ℚ)
    (hstride : eq.nXArr = mainNXArr eq.nX) (hX : eq.nX + 9 < 4294967296)
    (hfit : eq.nXArr * (eq.nY + 2) < 18446744073709551616)
    (hW : 1 ≤ eq.nThreads) (hfair : FairSchedule eq sched)
    (hX1 : 1 ≤ eq.nX) (hnX : eq.nX ≠ 1 ∧ eq.nX ≠ 3 ∧ eq.nX ≠ 5)
    (hD : ZeroOn (eq.nXArr * (eq.nY + 2)) eq.D)
    (hPhi : ZeroOn (eq.nXArr * (eq.nY + 2)) Phi)
    (hPhiN : ZeroOn (eq.nXArr * (eq.nY + 2)) PhiN) :
    ZeroOn (eq.nXArr * (eq.nY + 2))
        (solve eq noDelta sched (initState Phi PhiN deltas0)).mem.PhiGlobal
    ∧ ZeroOn (eq.nXArr * (eq.nY + 2))
        (solve eq noDelta sched (initState Phi PhiN deltas0)).mem.PhiNGlobal := by
  have hn : eq.nX + 2 ≤ eq.nXArr := by rw [hstride]; exact (mainNXArr_bounds _ hX).1
  have hlb : 1 ≤ lineBound eq := by
    rw [lineBound_eq eq (by omega)]; omega
  have hall : ∀ k,
      ZeroOn (eq.nXArr * (eq.nY + 2))
        (sweepsMem eq k { PhiGlobal := Phi, PhiNGlobal := PhiN }).PhiGlobal
      ∧ ZeroOn (eq.nXArr * (eq.nY + 2))
        (sweepsMem eq k { PhiGlobal := Phi, PhiNGlobal := PhiN }).PhiNGlobal := by
    intro k
    induction k with
    | zero => exact ⟨hPhi, hPhiN⟩
    | succ k ih =>
      rw [sweepsMem]
      split_ifs
      · exact ⟨sweepFn_zeroOn eq _ _ hstride hX hfit hlb hD ih.2 ih.1, ih.2⟩
      · exact ⟨ih.1, sweepFn_zeroOn eq _ _ hstride hX hfit hlb hD ih.1 ih.2⟩
  unfold solve
  rw [run_mem eq noDelta sched Phi PhiN deltas0 hW hn hfit hfair]
  exact hall eq.nT

set_option maxRecDepth 100000 in
/-- Claim C6. The zero field is not kept for every width.  With `nX = 3`, `nY = 1` (stride 8,
buffers of 24 cells), a source that is zero everywhere and two field buffers that are zero in
all their 24 cells, one sweep leaves `16/5` in cell `(0, 1)` of `PhiNGlobal` when the float
just before `PhiGlobal` in memory is `64`: the scalar loop starts at column 0 and its read
`Phi[i-1 + jArr-nXArr]` is the cell before the buffer, weighted by `C = 1/20`. -/
theorem C6_zero_field_not_kept :
    mainArrSize 3 1 = 24
    ∧ (∀ p, p < 24 → (fun p : Nat => if p < 24 then (0 : ℚ) else 64) p = 0)
    ∧ cell (mainNXArr 3) 0 1 < 24
    ∧ (solve (mainEq 4 3 1 1 (1/5) (1/5) (1/20) (fun _ => 0)) false
          (rankOrder (mainEq 4 3 1 1 (1/5) (1/5) (1/20) (fun _ => 0)))
          (initState (fun p => if p < 24 then 0 else 64) (fun p => if p < 24 then 0 else 64)
            (fun _ => 0))).mem.PhiNGlobal (cell (mainNXArr 3) 0 1) = 16 / 5 := by
  refine ⟨by decide, ?_, by decide, by decide!⟩
  intro p hp
  simp [hp]

end Jacobi
